import Mathlib

/-!
# Request-option resolution of the GraphQL relay handler

A shallow embedding of `handler.go` (package `gqlrelay`): the resolver
`getRequestOptions`, the constructor `NewHandler` and the entry point
`Handler.ServeHTTP`, together with the parts of the Go libraries they lean
on (`strings.Split`, `url.Values.Get`, `http.Header.Get`, `ioutil.ReadAll`,
`encoding/json`, `strconv.ParseFloat`).

Conventions of the embedding:

* a Go `string` / `[]byte` holding text is a Lean `String`, a sequence of
  Unicode characters (bytes that are not UTF-8 are outside the model);
* `json.parse` is the scanner of `encoding/json`: it reads a text into the
  tree of its tokens and reports a syntax error as `none`, also for a text
  that nests deeper than 10000 arrays and objects (`maxNestingDepth`);
* a JSON number is decoded to the `float64` nearest to it, ties to even
  (`json.convertNumber`, exact arithmetic on naturals); a number beyond the
  `float64` range is an error the decoder saves, and what is stored for it,
  which differs between releases of `encoding/json`, is `GoNumber.outOfRange`;
* a nil map is `none`, a non-nil `map[string]interface{}` is `some` of the
  list of its entries, in the order the keys were first stored;
* `json.encode` writes a tree as JSON text, with a whitespace of choice at
  every place where JSON allows whitespace; it is what the statements on
  request bodies use to speak of "the JSON text of" an object;
* a Go panic is the `Except.error` branch of the result;
* a call that reports an `error` returns a flag next to the value it leaves
  behind, so that ignored errors stay visible in the definitions;
* a request is one an HTTP server hands to a handler: the request and its
  URL are not nil;
* library calls return; the form decoder of `gorilla/schema` is a parameter.
-/

set_option exponentiation.threshold 4096
set_option maxRecDepth 1000000

namespace GqlRelay

/-! ## JSON trees -/

/-- Trees of the JSON shape over a kind of number `ν`. -/
inductive Tree (ν : Type) where
  | null
  | bool (b : Bool)
  | num (n : ν)
  | str (s : String)
  | arr (elems : List (Tree ν))
  | obj (members : List (String × Tree ν))

/-- JSON syntax trees: a number is the text of its literal. -/
abbrev JValue := Tree String

/-- Members of a JSON object. -/
abbrev JObject := List (String × JValue)

namespace json

/-! ### Scanner (`checkValid` and the token readers of `decode.go`) -/

/-- Nesting limit of the scanner (`maxNestingDepth`). -/
def maxNestingDepth : Nat := 10000

/-- JSON insignificant whitespace (`isSpace` in `scanner.go`). -/
def isSpace (c : Char) : Bool :=
  [' ', '\t', '\r', '\n'].contains c

/-- Drop leading whitespace. -/
def skipSpace : List Char → List Char
  | [] => []
  | c :: cs => if isSpace c then skipSpace cs else c :: cs

/-- Decimal digit test. -/
def isDigit (c : Char) : Bool :=
  decide (48 ≤ c.toNat ∧ c.toNat ≤ 57)

/-- Value of one hexadecimal digit, by its code point: `0`-`9`, `a`-`f`,
`A`-`F`. -/
def hexVal (c : Char) : Option Nat :=
  let n := c.toNat
  if 48 ≤ n ∧ n ≤ 57 then some (n - 48)
  else if 97 ≤ n ∧ n ≤ 102 then some (n - 87)
  else if 65 ≤ n ∧ n ≤ 70 then some (n - 55)
  else none

/-- The four hex digits of a `\u` escape (`getu4`, after the `\u`). -/
def getu4 (a b c d : Char) : Option Nat :=
  match hexVal a, hexVal b, hexVal c, hexVal d with
  | some x, some y, some z, some w => some (((x * 16 + y) * 16 + z) * 16 + w)
  | _, _, _, _ => none

/-- The Unicode replacement character U+FFFD. -/
def replacementChar : Char := Char.ofNat 0xFFFD

/-- Surrogate test of `utf16.IsSurrogate`. -/
def isSurrogate (r : Nat) : Bool := 0xd800 ≤ r && r < 0xe000

/-- Combine a surrogate pair (`utf16.DecodeRune`); anything that is not a
high surrogate followed by a low one gives U+FFFD. -/
def decodeRune (r1 r2 : Nat) : Char :=
  if 0xd800 ≤ r1 && r1 < 0xdc00 && 0xdc00 ≤ r2 && r2 < 0xe000 then
    Char.ofNat ((r1 - 0xd800) * 0x400 + (r2 - 0xdc00) + 0x10000)
  else replacementChar

/-- The one-letter escapes the scanner accepts, with the character each
stands for. -/
def escapeTable : List (Char × Char) :=
  [('"', '"'), ('\\', '\\'), ('/', '/'), ('b', Char.ofNat 8), ('f', Char.ofNat 12),
    ('n', '\n'), ('r', '\r'), ('t', '\t')]

/-- The character a one-letter escape stands for. -/
def simpleEscape (c : Char) : Option Char := escapeTable.lookup c

/-- The second half of a surrogate pair, when the input goes on with a `\u`
escape: its value and the input after it. -/
def lowSurrogate : List Char → Option (Nat × List Char)
  | '\\' :: 'u' :: l1 :: l2 :: l3 :: l4 :: rest =>
    match getu4 l1 l2 l3 l4 with
    | some rr1 => some (rr1, rest)
    | none => none
  | _ => none

/-- Read a string literal whose opening quote has been consumed; `acc` holds
the decoded characters so far, newest first. Control characters and unknown
escapes are syntax errors; a lone surrogate escape decodes to U+FFFD. -/
def scanString : Nat → List Char → List Char → Option (String × List Char)
  | 0, _, _ => none
  | _ + 1, _, [] => none
  | fuel + 1, acc, c :: rest =>
    if c = '"' then some (String.mk acc.reverse, rest)
    else if c = '\\' then
      match rest with
      | [] => none
      | e :: rest1 =>
        if e = 'u' then
          match rest1 with
          | h1 :: h2 :: h3 :: h4 :: rest2 =>
            match getu4 h1 h2 h3 h4 with
            | none => none
            | some rr =>
              if isSurrogate rr then
                match lowSurrogate rest2 with
                | some (rr1, rest3) =>
                  if decodeRune rr rr1 = replacementChar then
                    scanString fuel (replacementChar :: acc) rest2
                  else scanString fuel (decodeRune rr rr1 :: acc) rest3
                | none => scanString fuel (replacementChar :: acc) rest2
              else scanString fuel (Char.ofNat rr :: acc) rest2
          | _ => none
        else
          match simpleEscape e with
          | some ch => scanString fuel (ch :: acc) rest1
          | none => none
    else if c.toNat < 0x20 then none
    else scanString fuel (c :: acc) rest

/-- Split off the longest prefix of digits. -/
def spanDigits : List Char → List Char × List Char
  | [] => ([], [])
  | c :: cs =>
    if isDigit c then ((spanDigits cs).1.cons c, (spanDigits cs).2) else ([], c :: cs)

/-- Optional exponent part of a number: `e` or `E`, an optional sign, and at
least one digit. `none` is a syntax error. -/
def scanExponent (lit : List Char) : List Char → Option (List Char × List Char)
  | [] => some (lit, [])
  | c :: cs =>
    if c = 'e' ∨ c = 'E' then
      match cs with
      | [] => none
      | s :: cs1 =>
        if s = '+' ∨ s = '-' then
          if (spanDigits cs1).1 = [] then none
          else some (lit ++ [c, s] ++ (spanDigits cs1).1, (spanDigits cs1).2)
        else if (spanDigits cs).1 = [] then none
        else some (lit ++ [c] ++ (spanDigits cs).1, (spanDigits cs).2)
    else some (lit, c :: cs)

/-- Optional fraction part of a number, then the exponent. -/
def scanFraction (lit : List Char) : List Char → Option (List Char × List Char)
  | [] => some (lit, [])
  | c :: cs =>
    if c = '.' then
      if (spanDigits cs).1 = [] then none
      else scanExponent (lit ++ '.' :: (spanDigits cs).1) (spanDigits cs).2
    else scanExponent lit (c :: cs)

/-- Integer part after the optional sign: a single `0`, or a non-zero digit
followed by digits. -/
def scanInteger (sign : List Char) : List Char → Option (List Char × List Char)
  | [] => none
  | c :: cs =>
    if c = '0' then scanFraction (sign ++ [c]) cs
    else if isDigit c then
      scanFraction (sign ++ c :: (spanDigits cs).1) (spanDigits cs).2
    else none

/-- Read a number literal; the literal's text and the rest of the input. -/
def scanNumber : List Char → Option (List Char × List Char)
  | [] => none
  | c :: cs => if c = '-' then scanInteger ['-'] cs else scanInteger [] (c :: cs)

/-- Remove the literal `word` from the front of the input. -/
def dropWord : List Char → List Char → Option (List Char)
  | [], cs => some cs
  | _ :: _, [] => none
  | w :: ws, c :: cs => if w = c then dropWord ws cs else none

mutual
/-- Read one JSON value, after optional whitespace; `depth` counts the arrays
and objects that are open. Opening one more than `maxNestingDepth` is a
syntax error. -/
def parseValue : Nat → Nat → List Char → Option (JValue × List Char)
  | 0, _, _ => none
  | fuel + 1, depth, cs =>
    match skipSpace cs with
    | [] => none
    | c :: r =>
      if c = '{' then
        if maxNestingDepth ≤ depth then none
        else
          match skipSpace r with
          | [] => none
          | c1 :: r1 =>
            if c1 = '}' then some (Tree.obj [], r1)
            else
              match parseMembers fuel (depth + 1) r with
              | some (ms, r2) => some (Tree.obj ms, r2)
              | none => none
      else if c = '[' then
        if maxNestingDepth ≤ depth then none
        else
          match skipSpace r with
          | [] => none
          | c1 :: r1 =>
            if c1 = ']' then some (Tree.arr [], r1)
            else
              match parseElements fuel (depth + 1) r with
              | some (vs, r2) => some (Tree.arr vs, r2)
              | none => none
      else if c = '"' then
        match scanString (r.length + 1) [] r with
        | some (s, r1) => some (Tree.str s, r1)
        | none => none
      else if c = 't' then
        match dropWord ['r', 'u', 'e'] r with
        | some r1 => some (Tree.bool true, r1)
        | none => none
      else if c = 'f' then
        match dropWord ['a', 'l', 's', 'e'] r with
        | some r1 => some (Tree.bool false, r1)
        | none => none
      else if c = 'n' then
        match dropWord ['u', 'l', 'l'] r with
        | some r1 => some (Tree.null, r1)
        | none => none
      else
        match scanNumber (c :: r) with
        | some (lit, r1) => some (Tree.num (String.mk lit), r1)
        | none => none
/-- Read `value (, value)* ]`. -/
def parseElements : Nat → Nat → List Char → Option (List JValue × List Char)
  | 0, _, _ => none
  | fuel + 1, depth, cs =>
    match parseValue fuel depth cs with
    | none => none
    | some (v, r) =>
      match skipSpace r with
      | [] => none
      | c :: r1 =>
        if c = ',' then
          match parseElements fuel depth r1 with
          | some (vs, r2) => some (v :: vs, r2)
          | none => none
        else if c = ']' then some ([v], r1)
        else none
/-- Read `"key" : value (, "key" : value)* }`. -/
def parseMembers : Nat → Nat → List Char → Option (JObject × List Char)
  | 0, _, _ => none
  | fuel + 1, depth, cs =>
    match skipSpace cs with
    | [] => none
    | q :: r =>
      if q = '"' then
        match scanString (r.length + 1) [] r with
        | none => none
        | some (k, r1) =>
          match skipSpace r1 with
          | [] => none
          | c :: r2 =>
            if c = ':' then
              match parseValue fuel depth r2 with
              | none => none
              | some (v, r3) =>
                match skipSpace r3 with
                | [] => none
                | c1 :: r4 =>
                  if c1 = ',' then
                    match parseMembers fuel depth r4 with
                    | some (ms, r5) => some ((k, v) :: ms, r5)
                    | none => none
                  else if c1 = '}' then some ([(k, v)], r4)
                  else none
            else none
      else none
end

/-- The syntax tree of a complete JSON text, `none` when `checkValid` would
report a syntax error (empty input, trailing garbage and nesting beyond
`maxNestingDepth` included). -/
def parse (data : String) : Option JValue :=
  match parseValue (2 * data.length + 2) 0 data.data with
  | some (v, rest) => if skipSpace rest = [] then some v else none
  | none => none

/-! ### Writing JSON text -/

/-- The lower-case hexadecimal digit of a value below 16. -/
def hexDigit (n : Nat) : Char := Char.ofNat (if n < 10 then 48 + n else 87 + n)

/-- How a character of a string is written inside a string literal. -/
def escapeChar (c : Char) : List Char :=
  if c = '"' then ['\\', '"']
  else if c = '\\' then ['\\', '\\']
  else if c = '\n' then ['\\', 'n']
  else if c = '\r' then ['\\', 'r']
  else if c = '\t' then ['\\', 't']
  else if c.toNat < 0x20 then
    ['\\', 'u', '0', '0', hexDigit (c.toNat / 16), hexDigit (c.toNat % 16)]
  else [c]

/-- The characters of a string, escaped. -/
def escape : List Char → List Char
  | [] => []
  | c :: cs => escapeChar c ++ escape cs

/-- A string literal. -/
def quote (s : String) : List Char := '"' :: (escape s.data ++ ['"'])

mutual
/-- The text of a syntax tree, with the whitespace `ws` put wherever JSON
allows whitespace inside a value. -/
def render (ws : List Char) : JValue → List Char
  | Tree.null => ['n', 'u', 'l', 'l']
  | Tree.bool b => if b then ['t', 'r', 'u', 'e'] else ['f', 'a', 'l', 's', 'e']
  | Tree.num lit => lit.data
  | Tree.str s => quote s
  | Tree.arr xs => '[' :: renderElements ws xs
  | Tree.obj ms => '{' :: renderMembers ws ms
/-- The elements of an array and its closing bracket. -/
def renderElements (ws : List Char) : List JValue → List Char
  | [] => ws ++ [']']
  | x :: xs => ws ++ (render ws x ++ (ws ++ renderMore ws xs))
/-- The elements after the first and the closing bracket. -/
def renderMore (ws : List Char) : List JValue → List Char
  | [] => [']']
  | x :: xs => ',' :: (ws ++ (render ws x ++ (ws ++ renderMore ws xs)))
/-- The members of an object and its closing brace. -/
def renderMembers (ws : List Char) : JObject → List Char
  | [] => ws ++ ['}']
  | (k, v) :: ms =>
    ws ++ (quote k ++ (ws ++ ':' :: (ws ++ (render ws v ++ (ws ++ renderMoreMembers ws ms)))))
/-- The members after the first and the closing brace. -/
def renderMoreMembers (ws : List Char) : JObject → List Char
  | [] => ['}']
  | (k, v) :: ms =>
    ',' :: (ws ++ (quote k ++
      (ws ++ ':' :: (ws ++ (render ws v ++ (ws ++ renderMoreMembers ws ms))))))
end

/-- A complete JSON text for a syntax tree: the value with the whitespace
`ws` around it and at every place inside it. -/
def encode (ws : List Char) (v : JValue) : String :=
  String.mk (ws ++ (render ws v ++ ws))

/-- A complete number literal. -/
def validNumber (lit : String) : Bool :=
  decide (scanNumber lit.data = some (lit.data, []))

mutual
/-- Syntax trees whose number literals are JSON numbers. -/
def valid : JValue → Bool
  | Tree.num lit => validNumber lit
  | Tree.arr xs => validElements xs
  | Tree.obj ms => validMembers ms
  | _ => true
/-- Validity of every element. -/
def validElements : List JValue → Bool
  | [] => true
  | x :: xs => valid x && validElements xs
/-- Validity of every member value. -/
def validMembers : JObject → Bool
  | [] => true
  | (_, v) :: ms => valid v && validMembers ms
end

end json

namespace Tree

mutual
/-- Nesting depth: 0 for a scalar, one more than the deepest element for an
array or object. -/
def depth {ν : Type} : Tree ν → Nat
  | Tree.arr xs => depthElements xs + 1
  | Tree.obj ms => depthMembers ms + 1
  | _ => 0
/-- Depth of the deepest element. -/
def depthElements {ν : Type} : List (Tree ν) → Nat
  | [] => 0
  | x :: xs => max (depth x) (depthElements xs)
/-- Depth of the deepest member value. -/
def depthMembers {ν : Type} : List (String × Tree ν) → Nat
  | [] => 0
  | (_, v) :: ms => max (depth v) (depthMembers ms)
end

mutual
/-- Number of nodes, counting each element and member once more. -/
def cost {ν : Type} : Tree ν → Nat
  | Tree.arr xs => costElements xs + 1
  | Tree.obj ms => costMembers ms + 1
  | _ => 1
/-- Cost of a list of elements. -/
def costElements {ν : Type} : List (Tree ν) → Nat
  | [] => 0
  | x :: xs => cost x + costElements xs + 1
/-- Cost of a list of members. -/
def costMembers {ν : Type} : List (String × Tree ν) → Nat
  | [] => 0
  | (_, v) :: ms => cost v + costMembers ms + 1
end

end Tree

namespace json

/-! ### Shapes of written text -/

/-- Whitespace only. -/
def allSpace (ws : List Char) : Prop := ∀ c ∈ ws, isSpace c = true

instance allSpace.decidable (ws : List Char) : Decidable (allSpace ws) :=
  inferInstanceAs (Decidable (∀ c ∈ ws, isSpace c = true))

/-- What may follow a value: the end of the input, whitespace, a comma or a
closing bracket. -/
def delimited : List Char → Prop
  | [] => True
  | c :: _ => isSpace c = true ∨ c = ',' ∨ c = ']' ∨ c = '}'

end json

/-! ## float64 -/

/-- A finite `float64`: the value is `mant * 2 ^ exp / 2 ^ 1074`, negated when
`neg` is set. -/
structure Float64 where
  neg : Bool
  mant : Nat
  exp : Nat
deriving DecidableEq

/-- The unique form of a finite `float64`: 53 mantissa bits, exponent within
range, and a mantissa below `2 ^ 52` only at the least exponent (zero and
subnormals). -/
def Float64.isCanonical (f : Float64) : Bool :=
  decide (f.mant < 2 ^ 53 ∧ f.exp ≤ 2045 ∧ (f.mant < 2 ^ 52 → f.exp = 0))

namespace json

/-- Value of a run of decimal digits. -/
def digitsValue (ds : List Char) : Nat :=
  ds.foldl (fun n c => 10 * n + (c.toNat - 48)) 0

/-- A number literal read as `± digits * 10 ^ exp`. -/
structure Decimal where
  neg : Bool
  digits : Nat
  exp : Int

/-- The decimal a number literal `-? int (. frac)? ((e|E) (+|-)? digits)?`
denotes. -/
def decimalOf (lit : String) : Decimal :=
  let sign := match lit.data with
    | [] => (false, [])
    | c :: cs => if c = '-' then (true, cs) else (false, c :: cs)
  let int := spanDigits sign.2
  let frac := match int.2 with
    | [] => ([], [])
    | c :: cs => if c = '.' then spanDigits cs else ([], c :: cs)
  let exp : Int := match frac.2 with
    | [] => 0
    | _ :: [] => 0
    | _ :: s :: ds =>
      if s = '-' then - (digitsValue ds : Int)
      else if s = '+' then (digitsValue ds : Int)
      else (digitsValue (s :: ds) : Int)
  { neg := sign.1
    digits := digitsValue (int.1 ++ frac.1)
    exp := exp - (frac.1.length : Int) }

/-- Double the divisor until the quotient `n / m` is below `2 ^ 53`, counting
the doublings from `k` on. -/
def scaleDown : Nat → Nat → Nat → Nat → Nat × Nat
  | 0, _, m, k => (m, k)
  | fuel + 1, n, m, k =>
    if n / m < 2 ^ 53 then (m, k) else scaleDown fuel n (2 * m) (k + 1)

/-- The quotient `n / m` rounded to the nearest integer, ties to even. -/
def roundHalfEven (n m : Nat) : Nat :=
  if 2 * (n % m) < m then n / m
  else if m < 2 * (n % m) then n / m + 1
  else if (n / m) % 2 = 0 then n / m
  else n / m + 1

/-- The `float64` nearest to `n / m / 2 ^ 1074`: the exponent is the least one
that leaves at most 53 bits, the mantissa is rounded half to even, and a
result beyond the largest exponent is out of range (`none`). -/
def roundScaled (neg : Bool) (n m : Nat) : Option Float64 :=
  let scaled := scaleDown 2047 n m 0
  let mant := roundHalfEven n scaled.1
  let mant1 := if mant = 2 ^ 53 then 2 ^ 52 else mant
  let exp1 := if mant = 2 ^ 53 then scaled.2 + 1 else scaled.2
  if exp1 ≤ 2045 then some { neg := neg, mant := mant1, exp := exp1 } else none

/-- The `float64` nearest to a decimal (`strconv.ParseFloat`), `none` when it
is out of range. -/
def parseFloat (d : Decimal) : Option Float64 :=
  if 0 ≤ d.exp then roundScaled d.neg (d.digits * 10 ^ d.exp.toNat * 2 ^ 1074) 1
  else roundScaled d.neg (d.digits * 2 ^ 1074) (10 ^ (-d.exp).toNat)

/-- Model of `convertNumber` on a number literal: its `float64`, `none` when
`strconv.ParseFloat` reports that it is out of range. -/
def convertNumber (lit : String) : Option Float64 := parseFloat (decimalOf lit)

/-- Decimal digits of a number, most significant first. -/
def natDigits (n : Nat) : List Char :=
  if n = 0 then ['0'] else (Nat.digits 10 n).reverse.map (fun d => Char.ofNat (48 + d))

/-- The text of a number literal: sign, the digits of `D`, and the exponent
`e-1074`. -/
def exactLiteral (neg : Bool) (D : Nat) : List Char :=
  (if neg then ['-'] else []) ++ (natDigits D ++ ['e', '-', '1', '0', '7', '4'])

/-- A number literal with exactly the value of the `float64`: the integer
`mant * 2 ^ exp * 5 ^ 1074` followed by the exponent `e-1074`. -/
def formatFloat (f : Float64) : String :=
  String.mk (exactLiteral f.neg (f.mant * 2 ^ f.exp * 5 ^ 1074))

end json

/-! ## Go values -/

/-- What `encoding/json` stores for a JSON number in an `interface{}`: the
`float64` nearest to the literal, or, for a literal beyond the `float64`
range, what the decoder leaves next to the error it reports (nil in the
decoder the repository was written against, the largest finite `float64` of
the literal's sign in later ones). -/
inductive GoNumber where
  | float (f : Float64)
  | outOfRange (neg : Bool)

/-- What `encoding/json` stores in an `interface{}`: `nil`, `bool`, `float64`,
`string`, `[]interface{}` and `map[string]interface{}`. A map is the list of
its entries, in the order the keys were first stored. -/
abbrev GoValue := Tree GoNumber

/-- Entries of a `map[string]interface{}`. -/
abbrev GoMap := List (String × GoValue)

namespace json

/-! ### Decoding (`decode.go`) -/

/-- Map assignment `m[k] = v`: replaces the entry of an existing key, adds a
new entry otherwise. -/
def mapSet : GoMap → String → GoValue → GoMap
  | [], k, v => [(k, v)]
  | (k1, v1) :: rest, k, v =>
    if k1 = k then (k, v) :: rest else (k1, v1) :: mapSet rest k v

/-- Decode a number literal into an `interface{}`: the value stored and
whether an `UnmarshalTypeError` is saved. -/
def numberInterface (lit : String) : GoValue × Bool :=
  match convertNumber lit with
  | some f => (Tree.num (GoNumber.float f), false)
  | none => (Tree.num (GoNumber.outOfRange (decimalOf lit).neg), true)

mutual
/-- Decode a value into an empty `interface{}` (`valueInterface`): the Go value
and whether an error was saved on the way. -/
def valueInterface : JValue → GoValue × Bool
  | Tree.null => (Tree.null, false)
  | Tree.bool b => (Tree.bool b, false)
  | Tree.str s => (Tree.str s, false)
  | Tree.num lit => numberInterface lit
  | Tree.arr xs => (Tree.arr (arrayInterface xs).1, (arrayInterface xs).2)
  | Tree.obj ms => (Tree.obj (objectInterface [] ms).1, (objectInterface [] ms).2)
/-- Decode array elements in order (`arrayInterface`). -/
def arrayInterface : List JValue → List GoValue × Bool
  | [] => ([], false)
  | x :: xs =>
    ((valueInterface x).1 :: (arrayInterface xs).1,
      (valueInterface x).2 || (arrayInterface xs).2)
/-- Store object members into the map `m` in order (`objectInterface`, and
the map case of `object`): a later member overwrites an earlier one with the
same key. -/
def objectInterface : GoMap → JObject → GoMap × Bool
  | m, [] => (m, false)
  | m, (k, v) :: ms =>
    ((objectInterface (mapSet m k (valueInterface v).1) ms).1,
      (valueInterface v).2 || (objectInterface (mapSet m k (valueInterface v).1) ms).2)
end

/-- Store a JSON value into a `string` field: a string literal is stored,
`null` leaves the field alone, anything else saves an `UnmarshalTypeError`
and leaves the field alone. -/
def storeString (cur : String) : JValue → String × Bool
  | Tree.str s => (s, false)
  | Tree.null => (cur, false)
  | _ => (cur, true)

/-- Store a JSON value into a `map[string]interface{}`: an object is merged
into the map (allocated when nil), `null` sets the map to nil, anything else
saves an `UnmarshalTypeError` and leaves the map alone. -/
def storeMap (cur : Option GoMap) : JValue → Option GoMap × Bool
  | Tree.obj ms =>
    (some (objectInterface (cur.getD []) ms).1, (objectInterface (cur.getD []) ms).2)
  | Tree.null => (none, false)
  | _ => (cur, true)

/-- Case folding of `foldName`: the least rune of the simple-fold orbit, given
here for the orbits that meet the ASCII letters (`ſ` folds with `S`, the
Kelvin sign with `K`). -/
def foldRune (c : Char) : Char :=
  if 'a' ≤ c && c ≤ 'z' then Char.ofNat (c.toNat - 32)
  else if c == Char.ofNat 0x17F then 'S'
  else if c == Char.ofNat 0x212A then 'K'
  else c

/-- Folded form of an object key or field name. -/
def foldName (s : String) : List Char := s.data.map foldRune

/-- The field an object key selects among the JSON tags `names` of a struct:
an exact match when there is one, otherwise the first case-insensitive
match. -/
def fieldIndex (names : List String) (key : String) : Option Nat :=
  match names.indexOf? key with
  | some i => some i
  | none => (names.map foldName).indexOf? (foldName key)

/-- Keys of a map, in order. -/
def keys (m : GoMap) : List String := m.map Prod.fst

mutual
/-- Well-formed Go values: every number is a `float64` in its unique form and
no map repeats a key. -/
def isGoValue : GoValue → Bool
  | Tree.null => true
  | Tree.bool _ => true
  | Tree.str _ => true
  | Tree.num (GoNumber.float f) => f.isCanonical
  | Tree.num (GoNumber.outOfRange _) => false
  | Tree.arr xs => areGoValues xs
  | Tree.obj ms => isGoMap ms
/-- Every element is a well-formed Go value. -/
def areGoValues : List GoValue → Bool
  | [] => true
  | x :: xs => isGoValue x && areGoValues xs
/-- Entries of a Go map: distinct keys, each value well formed. -/
def isGoMap : GoMap → Bool
  | [] => true
  | (k, v) :: ms => decide (k ∉ keys ms) && isGoValue v && isGoMap ms
end

/-- A number literal for what is stored for a number. -/
def numberLiteral : GoNumber → String
  | GoNumber.float f => formatFloat f
  | GoNumber.outOfRange neg => if neg then "-1e999" else "1e999"

mutual
/-- The JSON syntax tree of a Go value: same shape, each `float64` written by
`formatFloat`. -/
def toTree : GoValue → JValue
  | Tree.null => Tree.null
  | Tree.bool b => Tree.bool b
  | Tree.str s => Tree.str s
  | Tree.num n => Tree.num (numberLiteral n)
  | Tree.arr xs => Tree.arr (toTreeElements xs)
  | Tree.obj ms => Tree.obj (toTreeMembers ms)
/-- The trees of the elements. -/
def toTreeElements : List GoValue → List JValue
  | [] => []
  | x :: xs => toTree x :: toTreeElements xs
/-- The trees of the entries. -/
def toTreeMembers : GoMap → JObject
  | [] => []
  | (k, v) :: ms => (k, toTree v) :: toTreeMembers ms
end

/-- The JSON object of a request body: members `query`, `variables` and
`operationName`, in this order. -/
def requestBody (query : String) (variables_ : JValue) (operationName : String) : JValue :=
  Tree.obj
    [("query", Tree.str query), ("variables", variables_),
      ("operationName", Tree.str operationName)]

end json

/-! ## Data model of `handler.go` -/

def ContentTypeJSON : String := "application/json"
def ContentTypeGraphQL : String := "application/graphql"
def ContentTypeFormUrlEncoded : String := "application/x-www-form-urlencoded"

/-- The resolved request: `Variables` is `none` for a nil map. -/
structure requestOptions where
  Query : String := ""
  Variables : Option GoMap := none
  OperationName : String := ""

/-- The workaround shape with `variables` as a JSON string. -/
structure requestOptionsCompatibility where
  Query : String := ""
  Variables : String := ""
  OperationName : String := ""

namespace json

/-- JSON tags of the fields of both option structs, in declaration order. -/
def optionTags : List String := ["query", "variables", "operationName"]

/-- Decode the members of an object into a `requestOptions`, in order. Keys
that select no field are skipped; a field error is saved and decoding goes
on with the next member. -/
def objectRequestOptions : requestOptions → JObject → requestOptions × Bool
  | opts, [] => (opts, false)
  | opts, (k, v) :: ms =>
    match fieldIndex optionTags k with
    | some 0 =>
      ((objectRequestOptions { opts with Query := (storeString opts.Query v).1 } ms).1,
        (storeString opts.Query v).2 ||
          (objectRequestOptions { opts with Query := (storeString opts.Query v).1 } ms).2)
    | some 1 =>
      ((objectRequestOptions { opts with Variables := (storeMap opts.Variables v).1 } ms).1,
        (storeMap opts.Variables v).2 ||
          (objectRequestOptions { opts with Variables := (storeMap opts.Variables v).1 } ms).2)
    | some 2 =>
      ((objectRequestOptions
          { opts with OperationName := (storeString opts.OperationName v).1 } ms).1,
        (storeString opts.OperationName v).2 ||
          (objectRequestOptions
            { opts with OperationName := (storeString opts.OperationName v).1 } ms).2)
    | _ => objectRequestOptions opts ms

/-- Decode the members of an object into a `requestOptionsCompatibility`. -/
def objectCompatibility :
    requestOptionsCompatibility → JObject → requestOptionsCompatibility × Bool
  | opts, [] => (opts, false)
  | opts, (k, v) :: ms =>
    match fieldIndex optionTags k with
    | some 0 =>
      ((objectCompatibility { opts with Query := (storeString opts.Query v).1 } ms).1,
        (storeString opts.Query v).2 ||
          (objectCompatibility { opts with Query := (storeString opts.Query v).1 } ms).2)
    | some 1 =>
      ((objectCompatibility { opts with Variables := (storeString opts.Variables v).1 } ms).1,
        (storeString opts.Variables v).2 ||
          (objectCompatibility { opts with Variables := (storeString opts.Variables v).1 } ms).2)
    | some 2 =>
      ((objectCompatibility
          { opts with OperationName := (storeString opts.OperationName v).1 } ms).1,
        (storeString opts.OperationName v).2 ||
          (objectCompatibility
            { opts with OperationName := (storeString opts.OperationName v).1 } ms).2)
    | _ => objectCompatibility opts ms

/-- Store a JSON value into a struct through `decode`: an object fills the
fields, `null` is a no-op, any other value is an `UnmarshalTypeError`. -/
def storeStruct {α : Type} (decode : α → JObject → α × Bool) (cur : α) : JValue → α × Bool
  | Tree.obj ms => decode cur ms
  | Tree.null => (cur, false)
  | _ => (cur, true)

/-- Model of `json.Unmarshal(data, &opts)` for `opts` a `requestOptions`: the
struct as it is left, and whether an error is returned. A syntax error
leaves the struct untouched. -/
def Unmarshal_requestOptions (data : String) (opts : requestOptions) :
    requestOptions × Bool :=
  match parse data with
  | none => (opts, true)
  | some v => storeStruct objectRequestOptions opts v

/-- Model of `json.Unmarshal(data, &optsCompatible)`. -/
def Unmarshal_requestOptionsCompatibility (data : String)
    (opts : requestOptionsCompatibility) : requestOptionsCompatibility × Bool :=
  match parse data with
  | none => (opts, true)
  | some v => storeStruct objectCompatibility opts v

/-- Model of `json.Unmarshal(data, &m)` for `m` a `map[string]interface{}`. -/
def Unmarshal_map (data : String) (m : Option GoMap) : Option GoMap × Bool :=
  match parse data with
  | none => (m, true)
  | some v => storeMap m v

/-- Model of `json.Unmarshal(data, m)` with the map itself as target rather
than a pointer to it: a syntax error for invalid text, an
`InvalidUnmarshalError` otherwise; the map is never written. -/
def Unmarshal_value (data : String) (m : Option GoMap) : Option GoMap × Bool :=
  match parse data with
  | none => (m, true)
  | some _ => (m, true)

end json

/-! ## The HTTP request as the handler observes it -/

namespace strings

/-- Pieces of `cs` between occurrences of `sep`; `cur` is the piece being
read, newest character first. -/
def splitChars (sep : Char) : List Char → List Char → List (List Char)
  | cur, [] => [cur.reverse]
  | cur, c :: cs =>
    if c = sep then cur.reverse :: splitChars sep [] cs else splitChars sep (c :: cur) cs

/-- Model of `strings.Split(s, sep)` for a separator of one character. -/
def Split (s : String) (sep : Char) : List String :=
  (splitChars sep [] s.data).map String.mk

end strings

namespace url

/-- Model of `url.Values` (`map[string][]string`): the values of each key, the
empty list for a key that is absent. -/
structure Values where
  values : String → List String

/-- Model of `Values.Get`: the first value of the key, `""` when there is none. -/
def Values.Get (v : Values) (key : String) : String :=
  match v.values key with
  | [] => ""
  | x :: _ => x

/-- Model of `*url.URL`, reduced to what `URL.Query()` returns. -/
structure URL where
  Query : Values

end url

namespace http

/-- Model of `http.Header`, keyed by canonical header names. -/
structure Header where
  values : String → List String

/-- Model of `Header.Get` for a key in canonical form. -/
def Header.Get (h : Header) (key : String) : String :=
  match h.values key with
  | [] => ""
  | x :: _ => x

/-- Numeric value of `http.StatusOK`. -/
def StatusOK : Nat := 200

/-- A non-nil request body, by what reading it to the end gives. -/
inductive Body where
  | failing
  | holding (data : String)

/-- Model of `*http.Request`. `Body` is `none` for a nil body; `ParseForm` is
the outcome of `r.ParseForm()`: `none` when it reports an error, otherwise
the `r.PostForm` it fills in. -/
structure Request where
  Method : String
  URL : url.URL
  Header : Header
  Body : Option Body
  ParseForm : Option url.Values

end http

namespace ioutil

/-- Model of `ioutil.ReadAll`: the bytes read and whether an error occurred. -/
def ReadAll : http.Body → String × Bool
  | http.Body.failing => ("", true)
  | http.Body.holding data => (data, false)

end ioutil

namespace schema

/-- Model of the form decoder of `gorilla/schema`, left open: `Decode` gives
the struct as it is left and whether an error is returned. -/
structure Decoder where
  Decode : requestOptions → url.Values → requestOptions × Bool

end schema

/-! ## `getRequestOptions` -/

/-- Embedding of `getRequestOptions`. The form decoder, a package-level
variable in the source, is a parameter. The result is `Except.error` where
the Go code would panic. -/
def getRequestOptions (decoder : schema.Decoder) (r : http.Request) :
    Except String requestOptions :=
  let query := r.URL.Query.Get "query"
  if query ≠ "" then
    -- get variables map (the map itself is handed to Unmarshal, not its address)
    let variables_ : Option GoMap := none
    let variablesStr := r.URL.Query.Get "variables"
    let variables_ := (json.Unmarshal_value variablesStr variables_).1
    Except.ok
      { Query := query
        Variables := variables_
        OperationName := r.URL.Query.Get "operationName" }
  else if r.Method ≠ "POST" then Except.ok {}
  else
    match r.Body with
    | none => Except.ok {}
    | some body =>
      let contentTypeStr := r.Header.Get "Content-Type"
      let contentTypeTokens := strings.Split contentTypeStr ';'
      match contentTypeTokens with
      | [] => Except.error "index out of range"
      | contentType :: _ =>
        if contentType = ContentTypeGraphQL then
          let read := ioutil.ReadAll body
          if read.2 then Except.ok {}
          else Except.ok { Query := read.1 }
        else if contentType = ContentTypeFormUrlEncoded then
          let opts : requestOptions := {}
          match r.ParseForm with
          | none => Except.ok {}
          | some postForm =>
            let decoded := decoder.Decode opts postForm
            if decoded.2 then Except.ok {}
            else Except.ok decoded.1
        else
          let opts : requestOptions := {}
          let read := ioutil.ReadAll body
          if read.2 then Except.ok opts
          else
            let direct := json.Unmarshal_requestOptions read.1 opts
            if direct.2 then
              -- Probably variables was sent as a string instead of an object.
              let optsCompatible : requestOptionsCompatibility := {}
              let optsCompatible :=
                (json.Unmarshal_requestOptionsCompatibility read.1 optsCompatible).1
              let variables_ :=
                (json.Unmarshal_map optsCompatible.Variables direct.1.Variables).1
              Except.ok { direct.1 with Variables := variables_ }
            else Except.ok direct.1

/-- The MIME-type portion the dispatch of `getRequestOptions` looks at: the
text of the `Content-Type` header before its first `;`. -/
def mimeType (r : http.Request) : String :=
  (strings.Split (r.Header.Get "Content-Type") ';').headD ""

/-- The last branch of `getRequestOptions` on a body that was read: the direct
decode, and after an error of it the compatibility decode. -/
def resolveJSON (data : String) : requestOptions :=
  if (json.Unmarshal_requestOptions data {}).2 then
    { (json.Unmarshal_requestOptions data {}).1 with
      Variables :=
        (json.Unmarshal_map (json.Unmarshal_requestOptionsCompatibility data {}).1.Variables
          (json.Unmarshal_requestOptions data {}).1.Variables).1 }
  else (json.Unmarshal_requestOptions data {}).1

/-! ## `Handler` -/

namespace render

/-- Model of `render.Options`, reduced to the option the handler sets. -/
structure Options where
  IndentJSON : Bool

/-- Model of `*render.Render`: the options it was built with. -/
structure Render where
  opt : Options

/-- Model of `render.New`. -/
def New (o : Options) : Render := { opt := o }

end render

/-- Embedding of `Handler`; both fields are pointers, `none` when nil. The
schema type `σ` is external. -/
structure Handler (σ : Type) where
  Schema : Option σ
  render : Option render.Render

/-- Embedding of `HandlerConfig`. -/
structure HandlerConfig (σ : Type) where
  Schema : Option σ
  Pretty : Bool

/-- Embedding of `NewHandlerConfig`. -/
def NewHandlerConfig {σ : Type} : HandlerConfig σ :=
  { Schema := none
    Pretty := true }

/-- Embedding of `NewHandler`; `p` is `none` for a nil config. The
`Except.error` branch is the panic. -/
def NewHandler {σ : Type} (p : Option (HandlerConfig σ)) : Except String (Handler σ) :=
  let p := match p with
    | none => NewHandlerConfig
    | some c => c
  match p.Schema with
  | none => Except.error "undefined graphQL schema"
  | some schema =>
    let r := render.New { IndentJSON := p.Pretty }
    Except.ok
      { Schema := some schema
        render := some r }

namespace gql

/-- Model of `gql.GraphqlParams`. -/
structure GraphqlParams (σ : Type) where
  Schema : σ
  RequestString : String
  VariableValues : Option GoMap
  OperationName : String

end gql

/-- What `ServeHTTP` does to its collaborators: a call of the execution
engine, or a call of `render.JSON` with the renderer used, a status and a
payload. -/
inductive Effect (σ ρ : Type) where
  | Graphql (params : gql.GraphqlParams σ)
  | JSON (render : render.Render) (status : Nat) (v : ρ)

/-- A run of `ServeHTTP`: the effects in order, and whether the call
returned (it does not while no result arrives on the channel). -/
structure Run (σ ρ : Type) where
  effects : List (Effect σ ρ)
  returned : Bool

/-- Embedding of `Handler.ServeHTTP`. The engine `Graphql` is a parameter:
for the parameters it is started with it gives the result it sends on the
result channel, `none` when it never sends one. The goroutine and the
receive from the channel are one synchronous step. -/
def Handler.ServeHTTP {σ ρ : Type} (decoder : schema.Decoder)
    (Graphql : gql.GraphqlParams σ → Option ρ) (h : Handler σ) (r : http.Request) :
    Except String (Run σ ρ) :=
  -- get query
  match getRequestOptions decoder r with
  | Except.error e => Except.error e
  | Except.ok opts =>
    -- execute graphql query
    match h.Schema with
    | none => Except.error "invalid memory address or nil pointer dereference"
    | some schema =>
      let params : gql.GraphqlParams σ :=
        { Schema := schema
          RequestString := opts.Query
          VariableValues := opts.Variables
          OperationName := opts.OperationName }
      match Graphql params with
      | none => Except.ok { effects := [Effect.Graphql params], returned := false }
      | some result =>
        -- render result
        match h.render with
        | none => Except.error "invalid memory address or nil pointer dereference"
        | some rnd =>
          Except.ok
            { effects := [Effect.Graphql params, Effect.JSON rnd http.StatusOK result]
              returned := true }

/-! ## Sample requests -/

namespace Sample

/-- A key-to-values table from a list of entries. -/
def table (entries : List (String × List String)) : String → List String :=
  fun k => (entries.lookup k).getD []

/-- Build a request. -/
def request (method : String) (query : List (String × List String))
    (header : List (String × List String)) (body : Option http.Body) : http.Request :=
  { Method := method
    URL := { Query := { values := table query } }
    Header := { values := table header }
    Body := body
    ParseForm := none }

/-- A `POST` of `application/json` with the given body. -/
def postJSON (body : String) : http.Request :=
  request "POST" [] [("Content-Type", ["application/json"])] (some (http.Body.holding body))

/-- URL parameters `query=\x7bhello\x7d`, `variables=\x7b"a":1\x7d`, `operationName=Op`. -/
def helloParams : List (String × List String) :=
  [("query", ["\x7bhello\x7d"]), ("variables", ["\x7b\"a\":1\x7d"]), ("operationName", ["Op"])]

/-- A `GET` with `helloParams` and no body. -/
def getHello : http.Request := request "GET" helloParams [] none

/-- A `POST` with `helloParams` and a JSON body that names another query. -/
def postHello : http.Request :=
  request "POST" helloParams [("Content-Type", ["application/json"])]
    (some (http.Body.holding "\x7b\"query\":\"other\",\"variables\":\x7b\"b\":2\x7d\x7d"))

/-- A `GET` whose `variables` parameter is not valid JSON. -/
def getBadVariables : http.Request :=
  request "GET" [("query", ["\x7bhello\x7d"]), ("variables", ["\x7boops"]),
    ("operationName", ["Op"])] [] none

/-- The direct-object JSON body of the round trip. -/
def directBody : String :=
  "\x7b\"query\":\"Q\",\"variables\":\x7b\"a\":1\x7d,\"operationName\":\"Op\"\x7d"

/-- A body that uses every kind of token: every escape, a surrogate pair, a
lone surrogate, numbers with fraction and exponent, numbers that round,
literals, empty and nested arrays and objects, a key that occurs twice, and
whitespace of every kind between the tokens. -/
def richBody : String :=
  "\x7b \"query\" : \"q\\ud83d\\ude00\\/\\b\\f\\n\\r\\t\\\"\\\\\\u0041\\u00Ab\\ud800z\" , \"variables\" : \x7b \"d\" : 1 , \"n\" : [ 0.1 , -2.5E+2 , 9007199254740993 , 9007199254740995, 1e-1 , -0 , 68 , true , false , null , [ ] , \x7b \x7d ] ,\r\n \"s\" : \x7b \"k\" : \"v\" \x7d , \"d\" : \"last\" \x7d ,\n\t\"operationName\" : \"Op\" \x7d"

/-- A `PUT` carrying the direct-object body. -/
def putDirect : http.Request :=
  request "PUT" [] [("Content-Type", ["application/json"])] (some (http.Body.holding directBody))

/-- A `POST` of the direct-object body as `application/json`. -/
def postDirect : http.Request := postJSON directBody

/-- A `POST` of the direct-object body without a `Content-Type` header. -/
def postDirectNoType : http.Request :=
  request "POST" [] [] (some (http.Body.holding directBody))

/-- A `POST` of the direct-object body as `text/plain`, a type the handler
does not know. -/
def postDirectPlain : http.Request :=
  request "POST" [] [("Content-Type", ["text/plain; charset=utf-8"])]
    (some (http.Body.holding directBody))

/-- A `POST` whose JSON body has a number where the variables belong. -/
def postPartial : http.Request :=
  postJSON "\x7b\"query\":\"Q\",\"variables\":5\x7d"

/-- A `POST` whose body cannot be read. -/
def postUnreadable : http.Request :=
  request "POST" [] [("Content-Type", ["application/json"])] (some http.Body.failing)

/-- A `POST` of a raw query as `application/graphql` with a parameter. -/
def postGraphQL : http.Request :=
  request "POST" [] [("Content-Type", ["application/graphql; charset=utf-8"])]
    (some (http.Body.holding "\x7b hello \x7d"))

/-- A `POST` whose `Content-Type` is made of `;` only and whose body is not JSON. -/
def postGarbage : http.Request :=
  request "POST" [] [("Content-Type", [";;"])] (some (http.Body.holding "not json"))

/-- A form decoder for the sample runs, in the manner of `schema.NewDecoder()`:
the form keys `query` and `operationName` fill the string fields with their
last value, and a `variables` key is an error (a map field has no
converter). -/
def formDecoder : schema.Decoder where
  Decode := fun opts src =>
    ({ opts with
        Query := (src.values "query").getLastD opts.Query
        OperationName := (src.values "operationName").getLastD opts.OperationName },
      !(src.values "variables").isEmpty)

/-- The `float64` of value `mant * 2 ^ e`, for `e` from -1074 on. -/
def float (neg : Bool) (mant : Nat) (e : Int) : GoValue :=
  Tree.num (GoNumber.float { neg := neg, mant := mant, exp := (e + 1074).toNat })

/-- The variables of the sample bodies: `a` is the `float64` 1. -/
def varsA1 : GoMap := [("a", float false (2 ^ 52) (-52))]

/-- The text of `varsA1` as the sample bodies spell it. -/
def varsA1Tree : JObject := [("a", Tree.num "1")]

/-- The variables of `richBody`: 0.1, -250, 2 ^ 53 (for 2 ^ 53 + 1),
2 ^ 53 + 4 (for 2 ^ 53 + 3), 0.1, -0 and 68 are the numbers of `n`. -/
def richVariables : GoMap :=
  [("d", Tree.str "last"),
    ("n", Tree.arr
      [float false 7205759403792794 (-56), float true 8796093022208000 (-45),
        float false (2 ^ 52) 1, float false 4503599627370498 1,
        float false 7205759403792794 (-56), float true 0 (-1074),
        float false 4785074604081152 (-46),
        Tree.bool true, Tree.bool false, Tree.null, Tree.arr [], Tree.obj []]),
    ("s", Tree.obj [("k", Tree.str "v")])]

/-- The query of `richBody`. -/
def richQuery : String :=
  String.mk ['q', Char.ofNat 0x1F600, '/', Char.ofNat 8, Char.ofNat 12, '\n', '\r', '\t', '"',
    '\\', 'A', Char.ofNat 0xAB, Char.ofNat 0xFFFD, 'z']

/-- The direct-object body of `varsA1` as the JSON writer gives it, with a
blank at every place for whitespace. -/
def writtenBody : String :=
  json.encode [' '] (json.requestBody "Q" (json.toTree (Tree.obj varsA1)) "Op")

/-- Arrays nested `n + 1` deep. -/
def nest : Nat → GoValue
  | 0 => Tree.arr []
  | n + 1 => Tree.arr [nest n]

/-- The direct-object body whose variables hold `n` nested arrays under the
key `a`, as text: `[` and `]` are each written `n` times. -/
def nestedBody (n : Nat) : String :=
  String.mk ("\x7b\"query\":\"Q\",\"variables\":\x7b\"a\":".data ++
    (List.replicate n '[' ++
      (List.replicate n ']' ++ "\x7d,\"operationName\":\"Op\"\x7d".data)))

/-- Variables that nest 10000 deep: an object holding 9999 nested arrays. -/
def deepVariables : GoMap := [("a", nest 9998)]

/-- The direct-object body of `deepVariables`, which nests 10001 deep. -/
def deepBody : String := nestedBody 9999

/-- An engine that answers every call with the query text it was given. -/
def echoEngine : gql.GraphqlParams String → Option String :=
  fun params => some params.RequestString

/-- A config with the schema named `"schema"` and plain output. -/
def config : HandlerConfig String :=
  { Schema := some "schema"
    Pretty := false }

/-- The handler `NewHandler` builds from `config`. -/
def handler : Handler String :=
  { Schema := some "schema"
    render := some (render.New { IndentJSON := false }) }

end Sample

/-! ## Lemmas on the JSON scanner, the writer and the decoder -/

namespace json

/-! ### Whitespace -/

theorem skipSpace_append (ws cs : List Char) (h : allSpace ws) :
    skipSpace (ws ++ cs) = skipSpace cs := by
  induction ws with
  | nil => rfl
  | cons c t ih =>
    have hc : isSpace c = true := h c (by simp)
    have ht : allSpace t := fun x hx => h x (by simp [hx])
    simp [skipSpace, hc, ih ht]

theorem skipSpace_cons (c : Char) (cs : List Char) (h : isSpace c = false) :
    skipSpace (c :: cs) = c :: cs := by
  simp [skipSpace, h]

theorem skipSpace_allSpace (ws : List Char) (h : allSpace ws) : skipSpace ws = [] := by
  have := skipSpace_append ws [] h
  simpa [skipSpace] using this

/-! ### Strings -/

theorem hexVal_hexDigit (n : Nat) (h : n < 16) : hexVal (hexDigit n) = some n := by
  interval_cases n <;> rfl

theorem escapeChar_length_pos (c : Char) : 1 ≤ (escapeChar c).length := by
  unfold escapeChar
  repeat' split
  all_goals simp

theorem length_le_escape (s : List Char) : s.length ≤ (escape s).length := by
  induction s with
  | nil => simp [escape]
  | cons c t ih =>
    have := escapeChar_length_pos c
    simp only [escape, List.length_cons, List.length_append]
    omega

/-- Reading what `escapeChar` wrote gives the character back, in one step. -/
theorem scanString_escapeChar (fuel : Nat) (acc : List Char) (c : Char) (rest : List Char) :
    scanString (fuel + 1) acc (escapeChar c ++ rest) = scanString fuel (c :: acc) rest := by
  unfold escapeChar
  split
  · next h => subst h; simp [scanString, simpleEscape, escapeTable, List.lookup]
  split
  · next h => subst h; simp [scanString, simpleEscape, escapeTable, List.lookup]
  split
  · next h => subst h; simp [scanString, simpleEscape, escapeTable, List.lookup]
  split
  · next h => subst h; simp [scanString, simpleEscape, escapeTable, List.lookup]
  split
  · next h => subst h; simp [scanString, simpleEscape, escapeTable, List.lookup]
  split
  · next h1 h2 h3 h4 h5 h6 =>
    have hhi : c.toNat / 16 < 16 := by omega
    have hlo : c.toNat % 16 < 16 := Nat.mod_lt _ (by norm_num)
    have h0 : hexVal '0' = some 0 := by rfl
    have hval : c.toNat / 16 * 16 + c.toNat % 16 = c.toNat := by omega
    have hsur : isSurrogate c.toNat = false := by
      simp [isSurrogate]; omega
    simp [scanString, getu4, h0, hexVal_hexDigit _ hhi, hexVal_hexDigit _ hlo, hsur, hval,
      Char.ofNat_toNat]
  · next h1 h2 h3 h4 h5 h6 =>
    simp [scanString, h1, h2, h6]

theorem scanString_quote (s : List Char) :
    ∀ (fuel : Nat) (acc rest : List Char), s.length < fuel →
      scanString fuel acc (escape s ++ '"' :: rest) = some (String.mk (acc.reverse ++ s), rest) := by
  induction s with
  | nil =>
    intro fuel acc rest hf
    obtain ⟨f, rfl⟩ : ∃ f, fuel = f + 1 := ⟨fuel - 1, by simp at hf; omega⟩
    simp [escape, scanString]
  | cons c t ih =>
    intro fuel acc rest hf
    obtain ⟨f, rfl⟩ : ∃ f, fuel = f + 1 := ⟨fuel - 1, by simp at hf; omega⟩
    simp only [escape, List.append_assoc]
    rw [scanString_escapeChar, ih f (c :: acc) rest (by simp at hf; omega)]
    simp

/-! ### Number literals -/

theorem delimited_not_digit {c : Char} {r : List Char} (h : delimited (c :: r)) :
    isDigit c = false ∧ c ≠ '.' ∧ c ≠ 'e' ∧ c ≠ 'E' := by
  simp only [delimited, isSpace, List.contains_cons, List.contains_nil, Bool.or_false,
    Bool.or_eq_true, beq_iff_eq] at h
  rcases h with ((h | h | h | h) | h | h | h) <;> subst h <;> decide

theorem spanDigits_append (l rest : List Char) (h : delimited rest) :
    spanDigits (l ++ rest) = ((spanDigits l).1, (spanDigits l).2 ++ rest) := by
  induction l with
  | nil =>
    cases rest with
    | nil => rfl
    | cons c r => simp [spanDigits, (delimited_not_digit h).1]
  | cons c t ih =>
    by_cases hc : isDigit c = true
    · simp [spanDigits, hc, ih]
    · simp [spanDigits, hc]

theorem scanExponent_append (lit cs rest l1 r : List Char) (h : delimited rest)
    (hs : scanExponent lit cs = some (l1, r)) :
    scanExponent lit (cs ++ rest) = some (l1, r ++ rest) := by
  cases cs with
  | nil =>
    simp only [scanExponent, Option.some.injEq, Prod.mk.injEq] at hs
    obtain ⟨rfl, rfl⟩ := hs
    cases rest with
    | nil => rfl
    | cons c t =>
      obtain ⟨_, _, he, hE⟩ := delimited_not_digit h
      simp [scanExponent, he, hE]
  | cons c cs0 =>
    by_cases hc : c = 'e' ∨ c = 'E'
    · cases cs0 with
      | nil => simp [scanExponent, hc] at hs
      | cons s cs1 =>
        by_cases hsign : s = '+' ∨ s = '-'
        · by_cases hd : (spanDigits cs1).1 = []
          · simp [scanExponent, hc, hsign, hd] at hs
          · simp only [scanExponent, hc, hsign, hd, if_true, if_false, Option.some.injEq,
              Prod.mk.injEq] at hs
            obtain ⟨rfl, rfl⟩ := hs
            simp [scanExponent, hc, hsign, hd, spanDigits_append cs1 rest h]
        · by_cases hd : (spanDigits (s :: cs1)).1 = []
          · simp [scanExponent, hc, hsign, hd] at hs
          · simp only [scanExponent, hc, hsign, hd, if_true, if_false, Option.some.injEq,
              Prod.mk.injEq] at hs
            obtain ⟨rfl, rfl⟩ := hs
            have := spanDigits_append (s :: cs1) rest h
            simp only [List.cons_append] at this
            simp [scanExponent, hc, hsign, hd, this]
    · simp only [scanExponent, hc, if_false, Option.some.injEq, Prod.mk.injEq] at hs
      obtain ⟨rfl, rfl⟩ := hs
      simp [scanExponent, hc]

theorem scanFraction_append (lit cs rest l1 r : List Char) (h : delimited rest)
    (hs : scanFraction lit cs = some (l1, r)) :
    scanFraction lit (cs ++ rest) = some (l1, r ++ rest) := by
  cases cs with
  | nil =>
    simp only [scanFraction, Option.some.injEq, Prod.mk.injEq] at hs
    obtain ⟨rfl, rfl⟩ := hs
    cases rest with
    | nil => rfl
    | cons c t =>
      obtain ⟨_, hdot, he, hE⟩ := delimited_not_digit h
      simp [scanFraction, scanExponent, hdot, he, hE]
  | cons c cs0 =>
    by_cases hc : c = '.'
    · by_cases hd : (spanDigits cs0).1 = []
      · simp [scanFraction, hc, hd] at hs
      · simp only [scanFraction, hc, hd, if_true, if_false] at hs
        have := scanExponent_append _ _ rest l1 r h hs
        simp [scanFraction, hc, hd, spanDigits_append cs0 rest h, this]
    · simp only [scanFraction, hc, if_false] at hs
      have := scanExponent_append _ _ rest l1 r h hs
      simpa [scanFraction, hc] using this

theorem scanInteger_append (sign cs rest l1 r : List Char) (h : delimited rest)
    (hs : scanInteger sign cs = some (l1, r)) :
    scanInteger sign (cs ++ rest) = some (l1, r ++ rest) := by
  cases cs with
  | nil => simp [scanInteger] at hs
  | cons c cs0 =>
    by_cases hc : c = '0'
    · simp only [scanInteger, hc, if_true] at hs
      have := scanFraction_append _ _ rest l1 r h hs
      simp [scanInteger, hc, this]
    · by_cases hd : isDigit c = true
      · simp only [scanInteger, hc, hd, if_true, if_false] at hs
        have := scanFraction_append _ _ rest l1 r h hs
        simp [scanInteger, hc, hd, spanDigits_append cs0 rest h, this]
      · simp [scanInteger, hc, hd] at hs

theorem scanNumber_append (cs rest l1 r : List Char) (h : delimited rest)
    (hs : scanNumber cs = some (l1, r)) :
    scanNumber (cs ++ rest) = some (l1, r ++ rest) := by
  cases cs with
  | nil => simp [scanNumber] at hs
  | cons c cs0 =>
    by_cases hc : c = '-'
    · simp only [scanNumber, hc, if_true] at hs
      have := scanInteger_append _ _ rest l1 r h hs
      simp [scanNumber, hc, this]
    · simp only [scanNumber, hc, if_false] at hs
      have := scanInteger_append _ _ rest l1 r h hs
      simpa [scanNumber, hc] using this

/-- A number literal starts with `-` or a digit. -/
theorem scanNumber_head (cs : List Char) (l1 r : List Char) (hs : scanNumber cs = some (l1, r)) :
    ∃ c t, cs = c :: t ∧ (c = '-' ∨ isDigit c = true) := by
  cases cs with
  | nil => simp [scanNumber] at hs
  | cons c cs0 =>
    refine ⟨c, cs0, rfl, ?_⟩
    by_cases hc : c = '-'
    · exact Or.inl hc
    · right
      simp only [scanNumber, hc, if_false, scanInteger] at hs
      by_cases h0 : c = '0'
      · subst h0; decide
      · by_cases hd : isDigit c = true
        · exact hd
        · simp [h0, hd] at hs

/-! ### Reading a scalar -/

theorem delimited_append_cons (ws : List Char) (c : Char) (t : List Char) (hws : allSpace ws)
    (hc : c = ',' ∨ c = ']' ∨ c = '}') : delimited (ws ++ c :: t) := by
  cases ws with
  | nil => exact Or.inr hc
  | cons w ws0 => exact Or.inl (hws w (by simp))

theorem delimited_allSpace (ws : List Char) (hws : allSpace ws) : delimited ws := by
  cases ws with
  | nil => trivial
  | cons w ws0 => exact Or.inl (hws w (by simp))

theorem isDigit_ne {c : Char} (h : isDigit c = true) :
    isSpace c = false ∧ c ≠ '{' ∧ c ≠ '[' ∧ c ≠ '"' ∧ c ≠ 't' ∧ c ≠ 'f' ∧ c ≠ 'n' ∧
      c ≠ ']' ∧ c ≠ '}' := by
  simp only [isDigit, decide_eq_true_eq] at h
  refine ⟨?_, ?_, ?_, ?_, ?_, ?_, ?_, ?_, ?_⟩
  · simp only [isSpace, List.contains_cons, List.contains_nil, Bool.or_false, Bool.or_eq_false_iff,
      beq_eq_false_iff_ne, ne_eq]
    refine ⟨?_, ?_, ?_, ?_⟩ <;> (intro hc; subst hc; revert h; decide)
  all_goals (intro hc; subst hc; revert h; decide)

/-- The first character of a rendered value. -/
theorem render_head (ws : List Char) (T : JValue) (hv : valid T = true) :
    ∃ c t, render ws T = c :: t ∧ isSpace c = false ∧ c ≠ ']' ∧ c ≠ '}' := by
  cases T with
  | null => exact ⟨'n', _, rfl, by decide, by decide, by decide⟩
  | bool b =>
    cases b
    · exact ⟨'f', _, rfl, by decide, by decide, by decide⟩
    · exact ⟨'t', _, rfl, by decide, by decide, by decide⟩
  | num lit =>
    simp only [valid, validNumber, decide_eq_true_eq] at hv
    obtain ⟨c, t, hct, hc⟩ := scanNumber_head _ _ _ hv
    refine ⟨c, t, by simp [render, hct], ?_⟩
    rcases hc with hc | hc
    · subst hc; exact ⟨by decide, by decide, by decide⟩
    · exact ⟨(isDigit_ne hc).1, (isDigit_ne hc).2.2.2.2.2.2.2.1, (isDigit_ne hc).2.2.2.2.2.2.2.2⟩
  | str s => exact ⟨'"', _, rfl, by decide, by decide, by decide⟩
  | arr xs => exact ⟨'[', renderElements ws xs, by simp [render], by decide, by decide, by decide⟩
  | obj ms => exact ⟨'{', renderMembers ws ms, by simp [render], by decide, by decide, by decide⟩

theorem parseValue_null (f depth : Nat) (pre rest : List Char) (hpre : allSpace pre) :
    parseValue (f + 1) depth (pre ++ (render ws Tree.null ++ rest)) = some (Tree.null, rest) := by
  rw [parseValue, skipSpace_append _ _ hpre]
  simp [render, skipSpace, isSpace, dropWord]

theorem parseValue_bool (f depth : Nat) (b : Bool) (pre rest : List Char) (hpre : allSpace pre) :
    parseValue (f + 1) depth (pre ++ (render ws (Tree.bool b) ++ rest)) =
      some (Tree.bool b, rest) := by
  rw [parseValue, skipSpace_append _ _ hpre]
  cases b <;> simp [render, skipSpace, isSpace, dropWord]

theorem parseValue_str (f depth : Nat) (s : String) (pre rest : List Char)
    (hpre : allSpace pre) :
    parseValue (f + 1) depth (pre ++ (render ws (Tree.str s) ++ rest)) =
      some (Tree.str s, rest) := by
  rw [parseValue, skipSpace_append _ _ hpre]
  simp only [render, quote, List.cons_append, List.append_assoc, List.singleton_append]
  rw [skipSpace_cons _ _ (by decide)]
  have hne : ('"' : Char) ≠ '{' ∧ ('"' : Char) ≠ '[' := by decide
  simp only [hne.1, hne.2, if_false, if_true, List.nil_append]
  rw [scanString_quote s.data _ [] rest (by
    have := length_le_escape s.data
    simp only [List.length_append, List.length_cons]
    omega)]
  simp

theorem parseValue_num (f depth : Nat) (lit : String) (pre rest : List Char)
    (hpre : allSpace pre) (hv : validNumber lit = true) (hrest : delimited rest) :
    parseValue (f + 1) depth (pre ++ (render ws (Tree.num lit) ++ rest)) =
      some (Tree.num lit, rest) := by
  rw [parseValue, skipSpace_append _ _ hpre]
  simp only [validNumber, decide_eq_true_eq] at hv
  obtain ⟨c, t, hct, hc⟩ := scanNumber_head _ _ _ hv
  have happ := scanNumber_append _ rest _ _ hrest hv
  simp only [render, hct, List.cons_append, List.nil_append] at happ ⊢
  have hlit : String.mk (c :: t) = lit := by rw [← hct]
  rcases hc with hc | hc
  · subst hc
    simp [skipSpace, isSpace, happ, hlit]
  · obtain ⟨h1, h2, h3, h4, h5, h6, h7, _, _⟩ := isDigit_ne hc
    simp [skipSpace, h1, h2, h3, h4, h5, h6, h7, happ, hlit]

/-! ### Reading what was written -/

theorem renderMore_delimited (ws : List Char) (hws : allSpace ws) (xs : List JValue)
    (rest : List Char) : delimited (ws ++ (renderMore ws xs ++ rest)) := by
  cases xs with
  | nil => exact delimited_append_cons ws ']' _ hws (by simp)
  | cons x t => exact delimited_append_cons ws ',' _ hws (by simp)

theorem renderMoreMembers_delimited (ws : List Char) (hws : allSpace ws) (ms : JObject)
    (rest : List Char) : delimited (ws ++ (renderMoreMembers ws ms ++ rest)) := by
  cases ms with
  | nil => exact delimited_append_cons ws '}' _ hws (by simp)
  | cons m t =>
    obtain ⟨k, v⟩ := m
    exact delimited_append_cons ws ',' _ hws (by simp)

theorem scanString_key (k : String) (rest : List Char) :
    scanString ((escape k.data ++ '"' :: rest).length + 1) [] (escape k.data ++ '"' :: rest) =
      some (k, rest) := by
  rw [scanString_quote k.data _ [] rest (by
    have := length_le_escape k.data
    simp only [List.length_append, List.length_cons]
    omega)]
  simp

mutual
/-- Reading the text of a valid tree gives the tree back, for any fuel from
its cost on and any depth that leaves room for its nesting. -/
theorem parseValue_render (ws : List Char) (hws : allSpace ws) :
    ∀ (T : JValue), valid T = true → ∀ (fuel depth : Nat) (pre rest : List Char),
      T.cost ≤ fuel → depth + T.depth ≤ maxNestingDepth → allSpace pre → delimited rest →
      parseValue fuel depth (pre ++ (render ws T ++ rest)) = some (T, rest)
  | Tree.null, _, fuel, depth, pre, rest, hf, _, hpre, _ => by
    obtain ⟨f, rfl⟩ : ∃ f, fuel = f + 1 := ⟨fuel - 1, by simp only [Tree.cost] at hf; omega⟩
    exact parseValue_null f depth pre rest hpre
  | Tree.bool b, _, fuel, depth, pre, rest, hf, _, hpre, _ => by
    obtain ⟨f, rfl⟩ : ∃ f, fuel = f + 1 := ⟨fuel - 1, by simp only [Tree.cost] at hf; omega⟩
    exact parseValue_bool f depth b pre rest hpre
  | Tree.str s, _, fuel, depth, pre, rest, hf, _, hpre, _ => by
    obtain ⟨f, rfl⟩ : ∃ f, fuel = f + 1 := ⟨fuel - 1, by simp only [Tree.cost] at hf; omega⟩
    exact parseValue_str f depth s pre rest hpre
  | Tree.num lit, hv, fuel, depth, pre, rest, hf, _, hpre, hrest => by
    obtain ⟨f, rfl⟩ : ∃ f, fuel = f + 1 := ⟨fuel - 1, by simp only [Tree.cost] at hf; omega⟩
    exact parseValue_num f depth lit pre rest hpre (by simpa [valid] using hv) hrest
  | Tree.arr xs, hv, fuel, depth, pre, rest, hf, hd, hpre, _ => by
    have ih := parseElements_render ws hws xs
    obtain ⟨f, rfl⟩ : ∃ f, fuel = f + 1 := ⟨fuel - 1, by simp only [Tree.cost] at hf; omega⟩
    simp only [Tree.cost, Tree.depth] at hf hd
    simp only [valid] at hv
    rw [parseValue, skipSpace_append _ _ hpre]
    simp only [render, List.cons_append]
    rw [skipSpace_cons _ _ (by decide)]
    have hdepth : ¬ maxNestingDepth ≤ depth := by omega
    simp only [(by decide : ('[' : Char) ≠ '{'), if_false, if_true, hdepth]
    cases xs with
    | nil =>
      simp only [renderElements, List.append_assoc, List.singleton_append]
      rw [skipSpace_append _ _ hws, skipSpace_cons _ _ (by decide)]
      simp
    | cons x t =>
      have hx : valid x = true := by
        simp only [validElements, Bool.and_eq_true] at hv; exact hv.1
      obtain ⟨c, tl, hc, hsp, hb, _⟩ := render_head ws x hx
      rw [ih hv (by simp) f (depth + 1) rest (by omega) (by omega)]
      simp only [renderElements, List.append_assoc, hc, List.cons_append]
      rw [skipSpace_append _ _ hws, skipSpace_cons _ _ hsp]
      simp [hb]
  | Tree.obj ms, hv, fuel, depth, pre, rest, hf, hd, hpre, _ => by
    have ih := parseMembers_render ws hws ms
    obtain ⟨f, rfl⟩ : ∃ f, fuel = f + 1 := ⟨fuel - 1, by simp only [Tree.cost] at hf; omega⟩
    simp only [Tree.cost, Tree.depth] at hf hd
    simp only [valid] at hv
    rw [parseValue, skipSpace_append _ _ hpre]
    simp only [render, List.cons_append]
    rw [skipSpace_cons _ _ (by decide)]
    have hdepth : ¬ maxNestingDepth ≤ depth := by omega
    simp only [if_true, hdepth, if_false]
    cases ms with
    | nil =>
      simp only [renderMembers, List.append_assoc, List.singleton_append]
      rw [skipSpace_append _ _ hws, skipSpace_cons _ _ (by decide)]
      simp
    | cons m t =>
      obtain ⟨k, v⟩ := m
      rw [ih hv (by simp) f (depth + 1) rest (by omega) (by omega)]
      simp only [renderMembers, quote, List.append_assoc, List.cons_append]
      rw [skipSpace_append _ _ hws, skipSpace_cons _ _ (by decide)]
      simp
/-- Reading the elements of a non-empty array. -/
theorem parseElements_render (ws : List Char) (hws : allSpace ws) :
    ∀ (l : List JValue), validElements l = true → l ≠ [] → ∀ (fuel depth : Nat)
      (rest : List Char), Tree.costElements l ≤ fuel →
      depth + Tree.depthElements l ≤ maxNestingDepth →
      parseElements fuel depth (renderElements ws l ++ rest) = some (l, rest)
  | [], _, hne, _, _, _, _, _ => absurd rfl hne
  | x :: t, hv, _, fuel, depth, rest, hf, hd => by
    have ihx := parseValue_render ws hws x
    have iht := parseElements_render ws hws t
    obtain ⟨f, rfl⟩ : ∃ f, fuel = f + 1 :=
      ⟨fuel - 1, by simp only [Tree.costElements] at hf; omega⟩
    simp only [Tree.costElements, Tree.depthElements] at hf hd
    simp only [validElements, Bool.and_eq_true] at hv
    rw [parseElements]
    simp only [renderElements, List.append_assoc]
    rw [ihx hv.1 f depth ws (ws ++ (renderMore ws t ++ rest)) (by omega)
      (by have := le_max_left (Tree.depth x) (Tree.depthElements t); omega) hws
      (renderMore_delimited ws hws t rest)]
    simp only
    rw [skipSpace_append _ _ hws]
    cases t with
    | nil =>
      simp only [renderMore, List.singleton_append]
      rw [skipSpace_cons _ _ (by decide)]
      simp
    | cons y t1 =>
      simp only [renderMore, List.cons_append]
      rw [skipSpace_cons _ _ (by decide)]
      have := iht hv.2 (by simp) f depth rest (by omega)
        (by have := le_max_right (Tree.depth x) (Tree.depthElements (y :: t1)); omega)
      simp only [renderElements, List.append_assoc] at this
      simp [this]
/-- Reading the members of a non-empty object. -/
theorem parseMembers_render (ws : List Char) (hws : allSpace ws) :
    ∀ (l : JObject), validMembers l = true → l ≠ [] → ∀ (fuel depth : Nat)
      (rest : List Char), Tree.costMembers l ≤ fuel →
      depth + Tree.depthMembers l ≤ maxNestingDepth →
      parseMembers fuel depth (renderMembers ws l ++ rest) = some (l, rest)
  | [], _, hne, _, _, _, _, _ => absurd rfl hne
  | (k, v) :: t, hv, _, fuel, depth, rest, hf, hd => by
    have ihv := parseValue_render ws hws v
    have iht := parseMembers_render ws hws t
    obtain ⟨f, rfl⟩ : ∃ f, fuel = f + 1 :=
      ⟨fuel - 1, by simp only [Tree.costMembers] at hf; omega⟩
    simp only [Tree.costMembers, Tree.depthMembers] at hf hd
    simp only [validMembers, Bool.and_eq_true] at hv
    rw [parseMembers]
    simp only [renderMembers, quote, List.append_assoc, List.cons_append,
      List.singleton_append, List.nil_append]
    rw [skipSpace_append _ _ hws, skipSpace_cons _ _ (by decide)]
    simp only [if_true]
    rw [scanString_key]
    simp only
    rw [skipSpace_append _ _ hws, skipSpace_cons _ _ (by decide)]
    simp only [if_true]
    rw [ihv hv.1 f depth ws (ws ++ (renderMoreMembers ws t ++ rest)) (by omega)
      (by have := le_max_left (Tree.depth v) (Tree.depthMembers t); omega) hws
      (renderMoreMembers_delimited ws hws t rest)]
    simp only
    rw [skipSpace_append _ _ hws]
    cases t with
    | nil =>
      simp only [renderMoreMembers, List.singleton_append]
      rw [skipSpace_cons _ _ (by decide)]
      simp
    | cons m t1 =>
      obtain ⟨k1, v1⟩ := m
      simp only [renderMoreMembers, List.cons_append]
      rw [skipSpace_cons _ _ (by decide)]
      have := iht hv.2 (by simp) f depth rest (by omega)
        (by have := le_max_right (Tree.depth v) (Tree.depthMembers ((k1, v1) :: t1)); omega)
      simp only [renderMembers, quote, List.append_assoc, List.cons_append,
        List.singleton_append, List.nil_append] at this
      simp only [quote, List.append_assoc, List.cons_append, List.singleton_append,
        List.nil_append, if_true]
      simp [this]
end

/-! ### The fuel for a written text -/

mutual
theorem cost_le_render (ws : List Char) :
    ∀ (T : JValue), valid T = true → T.cost ≤ 2 * (render ws T).length
  | Tree.null, _ => by simp [Tree.cost, render]
  | Tree.bool b, _ => by cases b <;> simp [Tree.cost, render]
  | Tree.str s, _ => by simp [Tree.cost, render, quote]; omega
  | Tree.num lit, hv => by
    obtain ⟨c, t, hc, _⟩ := render_head ws (Tree.num lit) hv
    simp [Tree.cost, hc]; omega
  | Tree.arr xs, hv => by
    have ih := costElements_le_render ws xs (by simpa [valid] using hv)
    cases xs with
    | nil => simp [Tree.cost, Tree.costElements, render]; omega
    | cons x t =>
      simp only [Tree.cost, render, renderElements, renderMore, List.length_cons,
        List.length_append] at ih ⊢
      omega
  | Tree.obj ms, hv => by
    have ih := costMembers_le_render ws ms (by simpa [valid] using hv)
    cases ms with
    | nil => simp [Tree.cost, Tree.costMembers, render]; omega
    | cons m t =>
      obtain ⟨k, v⟩ := m
      simp only [Tree.cost, render, renderMembers, renderMoreMembers, quote, List.length_cons,
        List.length_append] at ih ⊢
      omega
theorem costElements_le_render (ws : List Char) :
    ∀ (l : List JValue), validElements l = true →
      Tree.costElements l + 1 ≤ 2 * (renderMore ws l).length
  | [], _ => by simp [Tree.costElements, renderMore]
  | x :: t, hv => by
    simp only [validElements, Bool.and_eq_true] at hv
    have h1 := cost_le_render ws x hv.1
    have h2 := costElements_le_render ws t hv.2
    simp only [Tree.costElements, renderMore, List.length_cons, List.length_append]
    omega
theorem costMembers_le_render (ws : List Char) :
    ∀ (l : JObject), validMembers l = true →
      Tree.costMembers l + 1 ≤ 2 * (renderMoreMembers ws l).length
  | [], _ => by simp [Tree.costMembers, renderMoreMembers]
  | (k, v) :: t, hv => by
    simp only [validMembers, Bool.and_eq_true] at hv
    have h1 := cost_le_render ws v hv.1
    have h2 := costMembers_le_render ws t hv.2
    simp only [Tree.costMembers, renderMoreMembers, quote, List.length_cons, List.length_append]
    omega
end

/-- Round trip of the syntax: the text written for a valid tree that nests
no deeper than the scanner allows parses to that tree, whatever whitespace
is put between the tokens. -/
theorem parse_encode (ws : List Char) (hws : allSpace ws) (T : JValue)
    (hv : valid T = true) (hd : T.depth ≤ maxNestingDepth) :
    parse (encode ws T) = some T := by
  unfold parse encode
  have hc := cost_le_render ws T hv
  rw [parseValue_render ws hws T hv _ 0 ws ws (by
      simp only [String.length, List.length_append]
      omega) (by omega) hws (delimited_allSpace ws hws)]
  simp [skipSpace_allSpace ws hws]

/-! ### Decimal digits -/

/-- The character of a decimal digit. -/
theorem digitChar_spec (d : Nat) (h : d < 10) :
    isDigit (Char.ofNat (48 + d)) = true ∧ (Char.ofNat (48 + d)).toNat - 48 = d ∧
      (d ≠ 0 → Char.ofNat (48 + d) ≠ '0') := by
  interval_cases d <;> decide

theorem digitsValue_append (ds : List Char) (c : Char) :
    digitsValue (ds ++ [c]) = 10 * digitsValue ds + (c.toNat - 48) := by
  simp [digitsValue, List.foldl_append]

/-- Digits of a number without the special case of zero. -/
theorem digitsRev_spec (n : Nat) :
    digitsValue ((Nat.digits 10 n).reverse.map (fun d => Char.ofNat (48 + d))) = n ∧
      ∀ c ∈ (Nat.digits 10 n).reverse.map (fun d => Char.ofNat (48 + d)), isDigit c = true := by
  induction n using Nat.strong_induction_on with
  | _ n ih =>
    by_cases hn : n = 0
    · subst hn; simp [digitsValue]
    · have hpos : 0 < n := Nat.pos_of_ne_zero hn
      rw [Nat.digits_def' (by norm_num) hpos]
      obtain ⟨ih1, ih2⟩ := ih (n / 10) (Nat.div_lt_self hpos (by norm_num))
      have hd := digitChar_spec (n % 10) (Nat.mod_lt _ (by norm_num))
      constructor
      · simp only [List.reverse_cons, List.map_append, List.map_cons, List.map_nil]
        rw [digitsValue_append, ih1, hd.2.1]
        omega
      · intro c hc
        simp only [List.reverse_cons, List.map_append, List.map_cons, List.map_nil,
          List.mem_append, List.mem_singleton] at hc
        rcases hc with hc | hc
        · exact ih2 c hc
        · subst hc; exact hd.1

theorem natDigits_value (n : Nat) : digitsValue (natDigits n) = n := by
  unfold natDigits
  split
  · next h => subst h; rfl
  · exact (digitsRev_spec n).1

theorem natDigits_isDigit (n : Nat) : ∀ c ∈ natDigits n, isDigit c = true := by
  unfold natDigits
  split
  · intro c hc
    simp only [List.mem_singleton] at hc
    subst hc; decide
  · exact (digitsRev_spec n).2

/-- The first digit: a lone `0` for zero, a non-zero digit otherwise. -/
theorem natDigits_head (n : Nat) :
    (n = 0 ∧ natDigits n = ['0']) ∨
      ∃ c t, natDigits n = c :: t ∧ c ≠ '0' ∧ isDigit c = true ∧
        ∀ x ∈ t, isDigit x = true := by
  by_cases hn : n = 0
  · left; subst hn; exact ⟨rfl, rfl⟩
  · right
    have hall := natDigits_isDigit n
    have hlast := Nat.getLast_digit_ne_zero 10 hn
    have hne : Nat.digits 10 n ≠ [] := Nat.digits_ne_nil_iff_ne_zero.mpr hn
    have hlt : (Nat.digits 10 n).getLast hne < 10 :=
      Nat.digits_lt_base (by norm_num) (List.getLast_mem hne)
    have hrev : (Nat.digits 10 n).reverse =
        (Nat.digits 10 n).getLast hne :: (Nat.digits 10 n).dropLast.reverse := by
      conv_lhs => rw [← List.dropLast_append_getLast hne]
      simp
    have hform : natDigits n = Char.ofNat (48 + (Nat.digits 10 n).getLast hne) ::
        (Nat.digits 10 n).dropLast.reverse.map (fun d => Char.ofNat (48 + d)) := by
      simp [natDigits, hn, hrev]
    refine ⟨_, _, hform, (digitChar_spec _ hlt).2.2 hlast, (digitChar_spec _ hlt).1, ?_⟩
    intro x hx
    exact hall x (by rw [hform]; exact List.mem_cons_of_mem _ hx)

theorem spanDigits_digits (ds : List Char) (c : Char) (r : List Char)
    (hds : ∀ x ∈ ds, isDigit x = true) (hc : isDigit c = false) :
    spanDigits (ds ++ c :: r) = (ds, c :: r) := by
  induction ds with
  | nil => simp [spanDigits, hc]
  | cons d t ih =>
    have hd : isDigit d = true := hds d (by simp)
    have ht := ih (fun x hx => hds x (by simp [hx]))
    simp [spanDigits, hd, ht]

theorem spanDigits_all (ds : List Char) (hds : ∀ x ∈ ds, isDigit x = true) :
    spanDigits ds = (ds, []) := by
  induction ds with
  | nil => rfl
  | cons d t ih =>
    have hd : isDigit d = true := hds d (by simp)
    have ht := ih (fun x hx => hds x (by simp [hx]))
    simp [spanDigits, hd, ht]

theorem scanNumber_exactLiteral (neg : Bool) (D : Nat) :
    scanNumber (exactLiteral neg D) = some (exactLiteral neg D, []) := by
  have h1074 : spanDigits ['1', '0', '7', '4'] = (['1', '0', '7', '4'], []) := by decide
  have hexp : ∀ lit : List Char, scanExponent lit ['e', '-', '1', '0', '7', '4'] =
      some (lit ++ ['e', '-', '1', '0', '7', '4'], []) := by
    intro lit
    simp [scanExponent, h1074]
  have hfrac : ∀ lit : List Char, scanFraction lit ['e', '-', '1', '0', '7', '4'] =
      some (lit ++ ['e', '-', '1', '0', '7', '4'], []) := by
    intro lit
    simp only [scanFraction, (by decide : ('e' : Char) ≠ '.'), if_false]
    exact hexp lit
  have hint : ∀ sign : List Char,
      scanInteger sign (natDigits D ++ ['e', '-', '1', '0', '7', '4']) =
        some (sign ++ (natDigits D ++ ['e', '-', '1', '0', '7', '4']), []) := by
    intro sign
    rcases natDigits_head D with ⟨_, h0⟩ | ⟨c, t, hct, hc0, hcd, ht⟩
    · rw [h0]
      simp only [List.cons_append, List.nil_append, scanInteger, if_true, hfrac]
      simp
    · rw [hct]
      have hsp := spanDigits_digits t 'e' ['-', '1', '0', '7', '4'] ht (by decide)
      simp only [List.cons_append, scanInteger, hc0, hcd, if_false, if_true, hsp, hfrac]
      simp
  unfold exactLiteral
  cases neg
  · simp only [Bool.false_eq_true, if_false, List.nil_append]
    rcases natDigits_head D with ⟨_, h0⟩ | ⟨c, t, hct, hc0, hcd, ht⟩
    · have := hint []
      rw [h0] at this ⊢
      simpa [scanNumber] using this
    · have := hint []
      rw [hct] at this ⊢
      have hminus : c ≠ '-' := by
        intro h; subst h; revert hcd; decide
      simpa [scanNumber, hminus] using this
  · have := hint ['-']
    simpa [scanNumber] using this

theorem decimalOf_exactLiteral (neg : Bool) (D : Nat) :
    decimalOf (String.mk (exactLiteral neg D)) = { neg := neg, digits := D, exp := -1074 } := by
  have hsp := spanDigits_digits (natDigits D) 'e'
    ['-', '1', '0', '7', '4'] (natDigits_isDigit _) (by decide)
  have h1074 : digitsValue ['1', '0', '7', '4'] = 1074 := by decide
  obtain ⟨c, t, hct, hminus⟩ : ∃ c t, natDigits D = c :: t ∧ c ≠ '-' := by
    rcases natDigits_head D with ⟨_, h0⟩ | ⟨c, t, hct, _, hcd, _⟩
    · exact ⟨'0', [], h0, by decide⟩
    · exact ⟨c, t, hct, by intro h; subst h; revert hcd; decide⟩
  have hval := natDigits_value D
  unfold exactLiteral
  cases neg
  · simp only [decimalOf, Bool.false_eq_true, if_false, List.nil_append]
    rw [hct] at hsp hval
    simp only [List.cons_append] at hsp
    simp [hct, hminus, hsp, h1074, hval]
  · simp only [decimalOf, if_true, List.cons_append, List.nil_append]
    simp [hsp, h1074, hval]

theorem formatFloat_eq (f : Float64) :
    formatFloat f = String.mk (exactLiteral f.neg (f.mant * 2 ^ f.exp * 5 ^ 1074)) := rfl

/-- The literal `formatFloat` writes is a JSON number. -/
theorem validNumber_formatFloat (f : Float64) : validNumber (formatFloat f) = true := by
  rw [formatFloat_eq]
  simp only [validNumber, decide_eq_true_eq]
  exact scanNumber_exactLiteral _ _

/-! ### Rounding -/

theorem scaleDown_exact (mant k M : Nat) (hM : 0 < M) (hm : mant < 2 ^ 53)
    (hk : 0 < k → 2 ^ 52 ≤ mant) :
    ∀ (fuel j : Nat), j ≤ k → k - j < fuel →
      scaleDown fuel (mant * 2 ^ k * M) (2 ^ j * M) j = (2 ^ k * M, k) := by
  intro fuel
  induction fuel with
  | zero => intro j _ h; omega
  | succ f ih =>
    intro j hj hf
    have hpos : 0 < 2 ^ j * M := Nat.mul_pos (Nat.pow_pos (by norm_num)) hM
    have hdiv : mant * 2 ^ k * M / (2 ^ j * M) = mant * 2 ^ (k - j) := by
      have : mant * 2 ^ k * M = mant * 2 ^ (k - j) * (2 ^ j * M) := by
        have h2 : 2 ^ k = 2 ^ (k - j) * 2 ^ j := by
          rw [← Nat.pow_add]; congr 1; omega
        rw [h2]; ring
      rw [this, Nat.mul_div_cancel _ hpos]
    unfold scaleDown
    rw [hdiv]
    by_cases hjk : j = k
    · subst hjk
      simp only [Nat.sub_self, pow_zero, mul_one]
      rw [if_pos hm]
    · have hlt : j < k := by omega
      have h52 : 2 ^ 52 ≤ mant := hk (by omega)
      have hge : ¬ mant * 2 ^ (k - j) < 2 ^ 53 := by
        have h2 : 2 ≤ 2 ^ (k - j) := by
          calc 2 = 2 ^ 1 := by norm_num
            _ ≤ 2 ^ (k - j) := Nat.pow_le_pow_right (by norm_num) (by omega)
        have : 2 ^ 52 * 2 ≤ mant * 2 ^ (k - j) := Nat.mul_le_mul h52 h2
        have h53 : (2 : Nat) ^ 53 = 2 ^ 52 * 2 := by norm_num
        omega
      simp only [hge, if_false]
      have := ih (j + 1) (by omega) (by omega)
      rw [show 2 ^ (j + 1) * M = 2 * (2 ^ j * M) by rw [Nat.pow_succ]; ring] at this
      exact this

theorem roundHalfEven_exact (x m : Nat) (hm : 0 < m) : roundHalfEven (x * m) m = x := by
  unfold roundHalfEven
  simp [Nat.mul_mod_left, Nat.mul_div_cancel _ hm, hm]

/-- Rounding a value that is a `float64` gives that `float64`. -/
theorem roundScaled_exact (f : Float64) (hf : f.isCanonical = true) (M : Nat) (hM : 0 < M) :
    roundScaled f.neg (f.mant * 2 ^ f.exp * M) M = some f := by
  simp only [Float64.isCanonical, decide_eq_true_eq] at hf
  obtain ⟨hm, he, hsub⟩ := hf
  have hk : 0 < f.exp → 2 ^ 52 ≤ f.mant := by
    intro h
    by_contra hlt
    have := hsub (by omega)
    omega
  have hs := scaleDown_exact f.mant f.exp M hM hm hk 2047 0 (by omega) (by omega)
  simp only [pow_zero, one_mul] at hs
  have hr : roundHalfEven (f.mant * 2 ^ f.exp * M) (2 ^ f.exp * M) = f.mant := by
    rw [Nat.mul_assoc]
    exact roundHalfEven_exact _ _ (Nat.mul_pos (Nat.pow_pos (by norm_num)) hM)
  have hne : f.mant ≠ 2 ^ 53 := by omega
  unfold roundScaled
  simp only [hs, hr, hne, if_false, he, if_true]

/-- Converting the literal of `formatFloat` gives the `float64` back. -/
theorem convertNumber_formatFloat (f : Float64) (hf : f.isCanonical = true) :
    convertNumber (formatFloat f) = some f := by
  unfold convertNumber formatFloat
  rw [decimalOf_exactLiteral]
  have hneg : ¬ (0 : Int) ≤ -1074 := by decide
  have hto : (-(-1074 : Int)).toNat = 1074 := by decide
  unfold parseFloat
  simp only [hneg, if_false, hto]
  have h10 : (10 : Nat) ^ 1074 = 5 ^ 1074 * 2 ^ 1074 := by
    rw [← Nat.mul_pow]
  have hn : f.mant * 2 ^ f.exp * 5 ^ 1074 * 2 ^ 1074 = f.mant * 2 ^ f.exp * 10 ^ 1074 := by
    rw [h10]; ring
  rw [hn]
  exact roundScaled_exact f hf _ (Nat.pow_pos (by norm_num))

/-! ### The nesting limit -/

theorem parseValue_zero (depth : Nat) (cs : List Char) : parseValue 0 depth cs = none := by
  simp [parseValue]

theorem parseElements_zero (depth : Nat) (cs : List Char) :
    parseElements 0 depth cs = none := by
  simp [parseElements]

theorem parseMembers_zero (depth : Nat) (cs : List Char) :
    parseMembers 0 depth cs = none := by
  simp [parseMembers]

mutual
/-- Reading the text of a valid tree either fails or gives the tree back, and
it gives it back only if the nesting stays within the limit. -/
theorem parseValue_render_cases (ws : List Char) (hws : allSpace ws) :
    ∀ (T : JValue), valid T = true → ∀ (fuel depth : Nat) (pre rest : List Char),
      depth ≤ maxNestingDepth → allSpace pre → delimited rest →
      parseValue fuel depth (pre ++ (render ws T ++ rest)) = none ∨
        (parseValue fuel depth (pre ++ (render ws T ++ rest)) = some (T, rest) ∧
          depth + T.depth ≤ maxNestingDepth)
  | Tree.null, _, fuel, depth, pre, rest, hdep, hpre, _ => by
    cases fuel with
    | zero => exact Or.inl (parseValue_zero _ _)
    | succ f => exact Or.inr ⟨parseValue_null f depth pre rest hpre, by simpa [Tree.depth]⟩
  | Tree.bool b, _, fuel, depth, pre, rest, hdep, hpre, _ => by
    cases fuel with
    | zero => exact Or.inl (parseValue_zero _ _)
    | succ f => exact Or.inr ⟨parseValue_bool f depth b pre rest hpre, by simpa [Tree.depth]⟩
  | Tree.str s, _, fuel, depth, pre, rest, hdep, hpre, _ => by
    cases fuel with
    | zero => exact Or.inl (parseValue_zero _ _)
    | succ f => exact Or.inr ⟨parseValue_str f depth s pre rest hpre, by simpa [Tree.depth]⟩
  | Tree.num lit, hv, fuel, depth, pre, rest, hdep, hpre, hrest => by
    cases fuel with
    | zero => exact Or.inl (parseValue_zero _ _)
    | succ f =>
      exact Or.inr ⟨parseValue_num f depth lit pre rest hpre (by simpa [valid] using hv) hrest,
        by simpa [Tree.depth]⟩
  | Tree.arr xs, hv, fuel, depth, pre, rest, hdep, hpre, _ => by
    have ih := parseElements_render_cases ws hws xs
    cases fuel with
    | zero => exact Or.inl (parseValue_zero _ _)
    | succ f =>
      simp only [valid] at hv
      simp only [Tree.depth]
      rw [parseValue, skipSpace_append _ _ hpre]
      simp only [render, List.cons_append]
      rw [skipSpace_cons _ _ (by decide)]
      simp only [(by decide : ('[' : Char) ≠ '{'), if_false, if_true]
      by_cases hdepth : maxNestingDepth ≤ depth
      · left; simp [hdepth]
      · simp only [hdepth, if_false]
        cases xs with
        | nil =>
          right
          simp only [renderElements, List.append_assoc, List.singleton_append]
          rw [skipSpace_append _ _ hws, skipSpace_cons _ _ (by decide)]
          simp [Tree.depthElements]; omega
        | cons x t =>
          have hx : valid x = true := by
            simp only [validElements, Bool.and_eq_true] at hv; exact hv.1
          obtain ⟨c, tl, hc, hsp, hb, _⟩ := render_head ws x hx
          have hskip : skipSpace (renderElements ws (x :: t) ++ rest) =
              c :: (tl ++ (ws ++ (renderMore ws t ++ rest))) := by
            simp only [renderElements, List.append_assoc, hc, List.cons_append]
            rw [skipSpace_append _ _ hws, skipSpace_cons _ _ hsp]
          rw [hskip]
          simp only [hb, if_false]
          rcases ih hv (by simp) f (depth + 1) rest (by omega) with h | ⟨h, hd⟩
          · left; rw [h]
          · right; rw [h]; exact ⟨rfl, by omega⟩
  | Tree.obj ms, hv, fuel, depth, pre, rest, hdep, hpre, _ => by
    have ih := parseMembers_render_cases ws hws ms
    cases fuel with
    | zero => exact Or.inl (parseValue_zero _ _)
    | succ f =>
      simp only [valid] at hv
      simp only [Tree.depth]
      rw [parseValue, skipSpace_append _ _ hpre]
      simp only [render, List.cons_append]
      rw [skipSpace_cons _ _ (by decide)]
      simp only [if_true]
      by_cases hdepth : maxNestingDepth ≤ depth
      · left; simp [hdepth]
      · simp only [hdepth, if_false]
        cases ms with
        | nil =>
          right
          simp only [renderMembers, List.append_assoc, List.singleton_append]
          rw [skipSpace_append _ _ hws, skipSpace_cons _ _ (by decide)]
          simp [Tree.depthMembers]; omega
        | cons m t =>
          obtain ⟨k, v⟩ := m
          have hskip : skipSpace (renderMembers ws ((k, v) :: t) ++ rest) =
              '"' :: (escape k.data ++ '"' :: (ws ++ ':' :: (ws ++ (render ws v ++
                (ws ++ (renderMoreMembers ws t ++ rest)))))) := by
            simp only [renderMembers, quote, List.append_assoc, List.cons_append,
              List.singleton_append, List.nil_append]
            rw [skipSpace_append _ _ hws, skipSpace_cons _ _ (by decide)]
          rw [hskip]
          simp only [(by decide : ('"' : Char) ≠ '}'), if_false]
          rcases ih hv (by simp) f (depth + 1) rest (by omega) with h | ⟨h, hd⟩
          · left; rw [h]
          · right; rw [h]; exact ⟨rfl, by omega⟩
/-- The same for the elements of a non-empty array. -/
theorem parseElements_render_cases (ws : List Char) (hws : allSpace ws) :
    ∀ (l : List JValue), validElements l = true → l ≠ [] → ∀ (fuel depth : Nat)
      (rest : List Char), depth ≤ maxNestingDepth →
      parseElements fuel depth (renderElements ws l ++ rest) = none ∨
        (parseElements fuel depth (renderElements ws l ++ rest) = some (l, rest) ∧
          depth + Tree.depthElements l ≤ maxNestingDepth)
  | [], _, hne, _, _, _, _ => absurd rfl hne
  | x :: t, hv, _, fuel, depth, rest, hdep => by
    have ihx := parseValue_render_cases ws hws x
    have iht := parseElements_render_cases ws hws t
    cases fuel with
    | zero => exact Or.inl (parseElements_zero _ _)
    | succ f =>
      simp only [validElements, Bool.and_eq_true] at hv
      simp only [Tree.depthElements]
      rw [parseElements]
      simp only [renderElements, List.append_assoc]
      rcases ihx hv.1 f depth ws (ws ++ (renderMore ws t ++ rest)) hdep hws
        (renderMore_delimited ws hws t rest) with h | ⟨h, hd⟩
      · left; rw [h]
      · rw [h]
        simp only
        rw [skipSpace_append _ _ hws]
        cases t with
        | nil =>
          right
          simp only [renderMore, List.singleton_append]
          rw [skipSpace_cons _ _ (by decide)]
          simp [Tree.depthElements]; omega
        | cons y t1 =>
          simp only [renderMore, List.cons_append]
          rw [skipSpace_cons _ _ (by decide)]
          simp only [if_true, List.append_assoc]
          have := iht hv.2 (by simp) f depth rest hdep
          simp only [renderElements, List.append_assoc] at this
          rcases this with h2 | ⟨h2, hd2⟩
          · left; rw [h2]
          · right; rw [h2]
            exact ⟨rfl, by
              have := max_le hd hd2 (a := depth + Tree.depth x)
              simp only [Nat.add_max_add_left] at this ⊢
              omega⟩
/-- The same for the members of a non-empty object. -/
theorem parseMembers_render_cases (ws : List Char) (hws : allSpace ws) :
    ∀ (l : JObject), validMembers l = true → l ≠ [] → ∀ (fuel depth : Nat)
      (rest : List Char), depth ≤ maxNestingDepth →
      parseMembers fuel depth (renderMembers ws l ++ rest) = none ∨
        (parseMembers fuel depth (renderMembers ws l ++ rest) = some (l, rest) ∧
          depth + Tree.depthMembers l ≤ maxNestingDepth)
  | [], _, hne, _, _, _, _ => absurd rfl hne
  | (k, v) :: t, hv, _, fuel, depth, rest, hdep => by
    have ihv := parseValue_render_cases ws hws v
    have iht := parseMembers_render_cases ws hws t
    cases fuel with
    | zero => exact Or.inl (parseMembers_zero _ _)
    | succ f =>
      simp only [validMembers, Bool.and_eq_true] at hv
      simp only [Tree.depthMembers]
      rw [parseMembers]
      simp only [renderMembers, quote, List.append_assoc, List.cons_append,
        List.singleton_append, List.nil_append]
      rw [skipSpace_append _ _ hws, skipSpace_cons _ _ (by decide)]
      simp only [if_true]
      rw [scanString_key]
      simp only
      rw [skipSpace_append _ _ hws, skipSpace_cons _ _ (by decide)]
      simp only [if_true]
      rcases ihv hv.1 f depth ws (ws ++ (renderMoreMembers ws t ++ rest)) hdep hws
        (renderMoreMembers_delimited ws hws t rest) with h | ⟨h, hd⟩
      · left; rw [h]
      · rw [h]
        simp only
        rw [skipSpace_append _ _ hws]
        cases t with
        | nil =>
          right
          simp only [renderMoreMembers, List.singleton_append]
          rw [skipSpace_cons _ _ (by decide)]
          simp [Tree.depthMembers]; omega
        | cons m t1 =>
          obtain ⟨k1, v1⟩ := m
          simp only [renderMoreMembers, List.cons_append]
          rw [skipSpace_cons _ _ (by decide)]
          simp only [if_true]
          have := iht hv.2 (by simp) f depth rest hdep
          simp only [renderMembers, quote, List.append_assoc, List.cons_append,
            List.singleton_append, List.nil_append] at this
          simp only [quote, List.append_assoc, List.cons_append, List.singleton_append,
            List.nil_append]
          rcases this with h2 | ⟨h2, hd2⟩
          · left; rw [h2]
          · right; rw [h2]
            exact ⟨rfl, by
              have := max_le hd hd2 (a := depth + Tree.depth v)
              simp only [Nat.add_max_add_left] at this ⊢
              omega⟩
end

/-- A valid tree that nests deeper than the scanner allows is a syntax
error. -/
theorem parse_encode_too_deep (ws : List Char) (hws : allSpace ws) (T : JValue)
    (hv : valid T = true) (hd : maxNestingDepth < T.depth) :
    parse (encode ws T) = none := by
  unfold parse encode
  rcases parseValue_render_cases ws hws T hv (2 * (String.mk (ws ++ (render ws T ++ ws))).length + 2)
    0 ws ws (by simp [maxNestingDepth]) hws (delimited_allSpace ws hws) with h | ⟨_, h⟩
  · simp only [] at h ⊢
    rw [h]
  · omega

/-! ### The fuel of the scanner -/

theorem skipSpace_length (cs : List Char) : (skipSpace cs).length ≤ cs.length := by
  induction cs with
  | nil => simp [skipSpace]
  | cons c t ih =>
    unfold skipSpace
    split
    · simp only [List.length_cons]; omega
    · simp

theorem skipSpace_cons_length {cs : List Char} {c : Char} {r : List Char}
    (h : skipSpace cs = c :: r) : r.length < cs.length := by
  have := skipSpace_length cs
  rw [h] at this
  simp only [List.length_cons] at this
  omega

theorem lowSurrogate_length (cs : List Char) (rr : Nat) (rest : List Char)
    (h : lowSurrogate cs = some (rr, rest)) : rest.length ≤ cs.length := by
  unfold lowSurrogate at h
  split at h
  · split at h
    · cases h; simp only [List.length_cons]; omega
    · cases h
  · cases h

theorem scanString_length :
    ∀ (fuel : Nat) (acc cs : List Char) (s : String) (rest : List Char),
      scanString fuel acc cs = some (s, rest) → rest.length < cs.length
  | 0, _, _, _, _, h => by simp [scanString] at h
  | _ + 1, _, [], _, _, h => by simp [scanString] at h
  | f + 1, acc, c :: t, s, rest, h => by
    unfold scanString at h
    split at h
    · cases h; simp
    · split at h
      · split at h
        · cases h
        · split at h
          · split at h
            · split at h
              · cases h
              · split at h
                · split at h
                  · next hl =>
                    have hlow := lowSurrogate_length _ _ _ hl
                    split at h
                    · have := scanString_length f _ _ _ _ h
                      simp only [List.length_cons] at *; omega
                    · have := scanString_length f _ _ _ _ h
                      simp only [List.length_cons] at *; omega
                  · have := scanString_length f _ _ _ _ h
                    simp only [List.length_cons] at *; omega
                · have := scanString_length f _ _ _ _ h
                  simp only [List.length_cons] at *; omega
            · cases h
          · split at h
            · have := scanString_length f _ _ _ _ h
              simp only [List.length_cons] at *; omega
            · cases h
      · split at h
        · cases h
        · have := scanString_length f _ _ _ _ h
          simp only [List.length_cons] at *; omega

theorem dropWord_length :
    ∀ (w cs r : List Char), dropWord w cs = some r → r.length ≤ cs.length
  | [], cs, r, h => by simp [dropWord] at h; subst h; exact Nat.le_refl _
  | _ :: _, [], r, h => by simp [dropWord] at h
  | w :: ws, c :: cs, r, h => by
    rw [dropWord] at h
    split at h
    · have := dropWord_length ws cs r h
      simp only [List.length_cons]; omega
    · cases h

theorem spanDigits_length (cs : List Char) : (spanDigits cs).2.length ≤ cs.length := by
  induction cs with
  | nil => simp [spanDigits]
  | cons c t ih =>
    unfold spanDigits
    split
    · simp only [List.length_cons]; omega
    · simp

theorem scanExponent_length (lit cs l r : List Char) (h : scanExponent lit cs = some (l, r)) :
    r.length ≤ cs.length := by
  unfold scanExponent at h
  split at h
  · cases h; simp
  · split at h
    · split at h
      · cases h
      · split at h
        · split at h
          · cases h
          · cases h
            exact Nat.le_trans (spanDigits_length _) (by simp only [List.length_cons]; omega)
        · split at h
          · cases h
          · cases h
            exact Nat.le_trans (spanDigits_length _) (by simp only [List.length_cons]; omega)
    · cases h; exact Nat.le_refl _

theorem scanFraction_length (lit cs l r : List Char) (h : scanFraction lit cs = some (l, r)) :
    r.length ≤ cs.length := by
  cases cs with
  | nil => simp [scanFraction] at h; simp [h.2.symm]
  | cons c t =>
    rw [scanFraction] at h
    split at h
    · split at h
      · cases h
      · have h1 := scanExponent_length _ _ _ _ h
        have h2 := spanDigits_length t
        simp only [List.length_cons]; omega
    · exact scanExponent_length _ _ _ _ h

theorem scanInteger_length (sign cs l r : List Char) (h : scanInteger sign cs = some (l, r)) :
    r.length < cs.length := by
  cases cs with
  | nil => simp [scanInteger] at h
  | cons c t =>
    rw [scanInteger] at h
    split at h
    · have := scanFraction_length _ _ _ _ h
      simp only [List.length_cons]; omega
    · split at h
      · have h1 := scanFraction_length _ _ _ _ h
        have h2 := spanDigits_length t
        simp only [List.length_cons]; omega
      · cases h

theorem scanNumber_length (cs l r : List Char) (h : scanNumber cs = some (l, r)) :
    r.length < cs.length := by
  cases cs with
  | nil => simp [scanNumber] at h
  | cons c t =>
    rw [scanNumber] at h
    split at h
    · have := scanInteger_length _ _ _ _ h
      simp only [List.length_cons]; omega
    · exact scanInteger_length _ _ _ _ h

/-- What a reader returns as the rest is shorter than its input. -/
theorem parse_length (f : Nat) :
    (∀ d cs v rest, parseValue f d cs = some (v, rest) → rest.length < cs.length) ∧
      (∀ d cs vs rest, parseElements f d cs = some (vs, rest) → rest.length < cs.length) ∧
      (∀ d cs ms rest, parseMembers f d cs = some (ms, rest) → rest.length < cs.length) := by
  induction f with
  | zero => simp [parseValue, parseElements, parseMembers]
  | succ f ih =>
    obtain ⟨ihv, ihe, ihm⟩ := ih
    refine ⟨?_, ?_, ?_⟩
    · intro d cs v rest h
      rw [parseValue] at h
      cases hsk : skipSpace cs with
      | nil => simp [hsk] at h
      | cons c r0 =>
        have hlen := skipSpace_cons_length hsk
        simp only [hsk] at h
        by_cases hc : c = '{'
        · simp only [hc, if_true] at h
          by_cases hd : maxNestingDepth ≤ d
          · simp [hd] at h
          · simp only [hd, if_false] at h
            cases hsk1 : skipSpace r0 with
            | nil => simp [hsk1] at h
            | cons c1 r1 =>
              have hlen1 := skipSpace_cons_length hsk1
              simp only [hsk1] at h
              by_cases hc1 : c1 = '}'
              · simp only [hc1, if_true, Option.some.injEq, Prod.mk.injEq] at h
                rw [← h.2]; omega
              · simp only [hc1, if_false] at h
                cases hpm : parseMembers f (d + 1) r0 with
                | none => simp [hpm] at h
                | some p =>
                  obtain ⟨ms, r2⟩ := p
                  simp only [hpm, Option.some.injEq, Prod.mk.injEq] at h
                  have := ihm _ _ _ _ hpm
                  rw [← h.2]; omega
        · by_cases hb : c = '['
          · simp only [hb, (by decide : ('[' : Char) ≠ '{'), if_false, if_true] at h
            by_cases hd : maxNestingDepth ≤ d
            · simp [hd] at h
            · simp only [hd, if_false] at h
              cases hsk1 : skipSpace r0 with
              | nil => simp [hsk1] at h
              | cons c1 r1 =>
                have hlen1 := skipSpace_cons_length hsk1
                simp only [hsk1] at h
                by_cases hc1 : c1 = ']'
                · simp only [hc1, if_true, Option.some.injEq, Prod.mk.injEq] at h
                  rw [← h.2]; omega
                · simp only [hc1, if_false] at h
                  cases hpe : parseElements f (d + 1) r0 with
                  | none => simp [hpe] at h
                  | some p =>
                    obtain ⟨vs, r2⟩ := p
                    simp only [hpe, Option.some.injEq, Prod.mk.injEq] at h
                    have := ihe _ _ _ _ hpe
                    rw [← h.2]; omega
          · simp only [hc, hb, if_false] at h
            split at h
            · split at h
              · next hs =>
                have := scanString_length _ _ _ _ _ hs
                cases h; omega
              · cases h
            · split at h
              · split at h
                · next hw =>
                  have := dropWord_length _ _ _ hw
                  cases h; omega
                · cases h
              · split at h
                · split at h
                  · next hw =>
                    have := dropWord_length _ _ _ hw
                    cases h; omega
                  · cases h
                · split at h
                  · split at h
                    · next hw =>
                      have := dropWord_length _ _ _ hw
                      cases h; omega
                    · cases h
                  · split at h
                    · next hn =>
                      have := scanNumber_length _ _ _ hn
                      simp only [List.length_cons] at this
                      cases h; omega
                    · cases h
    · intro d cs vs rest h
      rw [parseElements] at h
      cases hpv : parseValue f d cs with
      | none => simp [hpv] at h
      | some p =>
        obtain ⟨v, r⟩ := p
        have hv := ihv _ _ _ _ hpv
        simp only [hpv] at h
        cases hsk : skipSpace r with
        | nil => simp [hsk] at h
        | cons c r1 =>
          have hlen := skipSpace_cons_length hsk
          simp only [hsk] at h
          by_cases hc : c = ','
          · simp only [hc, if_true] at h
            cases hpe : parseElements f d r1 with
            | none => simp [hpe] at h
            | some q =>
              obtain ⟨vs1, r2⟩ := q
              simp only [hpe, Option.some.injEq, Prod.mk.injEq] at h
              have := ihe _ _ _ _ hpe
              rw [← h.2]; omega
          · simp only [hc, if_false] at h
            by_cases hb : c = ']'
            · simp only [hb, if_true, Option.some.injEq, Prod.mk.injEq] at h
              rw [← h.2]; omega
            · simp [hb] at h
    · intro d cs ms rest h
      rw [parseMembers] at h
      cases hsk : skipSpace cs with
      | nil => simp [hsk] at h
      | cons q r =>
        have hlen := skipSpace_cons_length hsk
        simp only [hsk] at h
        by_cases hq : q = '"'
        · simp only [hq, if_true] at h
          cases hs : scanString (r.length + 1) [] r with
          | none => simp [hs] at h
          | some p =>
            obtain ⟨k, r1⟩ := p
            have hk := scanString_length _ _ _ _ _ hs
            simp only [hs] at h
            cases hsk1 : skipSpace r1 with
            | nil => simp [hsk1] at h
            | cons c r2 =>
              have hlen1 := skipSpace_cons_length hsk1
              simp only [hsk1] at h
              by_cases hc : c = ':'
              · simp only [hc, if_true] at h
                cases hpv : parseValue f d r2 with
                | none => simp [hpv] at h
                | some p1 =>
                  obtain ⟨v, r3⟩ := p1
                  have hv := ihv _ _ _ _ hpv
                  simp only [hpv] at h
                  cases hsk2 : skipSpace r3 with
                  | nil => simp [hsk2] at h
                  | cons c1 r4 =>
                    have hlen2 := skipSpace_cons_length hsk2
                    simp only [hsk2] at h
                    by_cases hc1 : c1 = ','
                    · simp only [hc1, if_true] at h
                      cases hpm : parseMembers f d r4 with
                      | none => simp [hpm] at h
                      | some p2 =>
                        obtain ⟨ms1, r5⟩ := p2
                        simp only [hpm, Option.some.injEq, Prod.mk.injEq] at h
                        have := ihm _ _ _ _ hpm
                        rw [← h.2]; omega
                    · simp only [hc1, if_false] at h
                      by_cases hb : c1 = '}'
                      · simp only [hb, if_true, Option.some.injEq, Prod.mk.injEq] at h
                        rw [← h.2]; omega
                      · simp [hb] at h
              · simp [hc] at h
        · simp [hq] at h

/-- The readers do not depend on the fuel once it is twice the length of the
input: a result found with any fuel is found with that much. -/
theorem parse_fuel (f : Nat) :
    (∀ d cs r g, parseValue f d cs = some r → 2 * cs.length + 1 ≤ g →
        parseValue g d cs = some r) ∧
      (∀ d cs r g, parseElements f d cs = some r → 2 * cs.length + 2 ≤ g →
        parseElements g d cs = some r) ∧
      (∀ d cs r g, parseMembers f d cs = some r → 2 * cs.length + 2 ≤ g →
        parseMembers g d cs = some r) := by
  induction f with
  | zero => simp [parseValue, parseElements, parseMembers]
  | succ f ih =>
    obtain ⟨ihv, ihe, ihm⟩ := ih
    obtain ⟨lenv, lene, lenm⟩ := parse_length f
    refine ⟨?_, ?_, ?_⟩
    · intro d cs r g h hg
      obtain ⟨g, rfl⟩ : ∃ g1, g = g1 + 1 := ⟨g - 1, by omega⟩
      rw [parseValue] at h ⊢
      cases hsk : skipSpace cs with
      | nil => simp [hsk] at h
      | cons c r0 =>
        have hlen := skipSpace_cons_length hsk
        simp only [hsk] at h ⊢
        by_cases hc : c = '{'
        · simp only [hc, if_true] at h ⊢
          by_cases hd : maxNestingDepth ≤ d
          · simp [hd] at h
          · simp only [hd, if_false] at h ⊢
            cases hsk1 : skipSpace r0 with
            | nil => simp [hsk1] at h
            | cons c1 r1 =>
              simp only [hsk1] at h ⊢
              by_cases hc1 : c1 = '}'
              · simp only [hc1, if_true] at h ⊢
                exact h
              · simp only [hc1, if_false] at h ⊢
                cases hpm : parseMembers f (d + 1) r0 with
                | none => simp [hpm] at h
                | some p =>
                  rw [ihm _ _ _ g hpm (by omega)]
                  rw [hpm] at h
                  exact h
        · by_cases hb : c = '['
          · simp only [hb, (by decide : ('[' : Char) ≠ '{'), if_false, if_true] at h ⊢
            by_cases hd : maxNestingDepth ≤ d
            · simp [hd] at h
            · simp only [hd, if_false] at h ⊢
              cases hsk1 : skipSpace r0 with
              | nil => simp [hsk1] at h
              | cons c1 r1 =>
                simp only [hsk1] at h ⊢
                by_cases hc1 : c1 = ']'
                · simp only [hc1, if_true] at h ⊢
                  exact h
                · simp only [hc1, if_false] at h ⊢
                  cases hpe : parseElements f (d + 1) r0 with
                  | none => simp [hpe] at h
                  | some p =>
                    rw [ihe _ _ _ g hpe (by omega)]
                    rw [hpe] at h
                    exact h
          · simp only [hc, hb, if_false] at h ⊢
            exact h
    · intro d cs r g h hg
      obtain ⟨g, rfl⟩ : ∃ g1, g = g1 + 1 := ⟨g - 1, by omega⟩
      rw [parseElements] at h ⊢
      cases hpv : parseValue f d cs with
      | none => simp [hpv] at h
      | some p =>
        obtain ⟨v, r1⟩ := p
        have hv := lenv _ _ _ _ hpv
        rw [ihv _ _ _ g hpv (by omega)]
        simp only [hpv] at h ⊢
        cases hsk : skipSpace r1 with
        | nil => simp [hsk] at h
        | cons c r2 =>
          have hlen := skipSpace_cons_length hsk
          simp only [hsk] at h ⊢
          by_cases hc : c = ','
          · simp only [hc, if_true] at h ⊢
            cases hpe : parseElements f d r2 with
            | none => simp [hpe] at h
            | some q =>
              rw [ihe _ _ _ g hpe (by omega)]
              rw [hpe] at h
              exact h
          · simp only [hc, if_false] at h ⊢
            exact h
    · intro d cs r g h hg
      obtain ⟨g, rfl⟩ : ∃ g1, g = g1 + 1 := ⟨g - 1, by omega⟩
      rw [parseMembers] at h ⊢
      cases hsk : skipSpace cs with
      | nil => simp [hsk] at h
      | cons q r0 =>
        have hlen := skipSpace_cons_length hsk
        simp only [hsk] at h ⊢
        by_cases hq : q = '"'
        · simp only [hq, if_true] at h ⊢
          cases hs : scanString (r0.length + 1) [] r0 with
          | none => simp [hs] at h
          | some p =>
            obtain ⟨k, r1⟩ := p
            have hk := scanString_length _ _ _ _ _ hs
            simp only [hs] at h ⊢
            cases hsk1 : skipSpace r1 with
            | nil => simp [hsk1] at h
            | cons c r2 =>
              have hlen1 := skipSpace_cons_length hsk1
              simp only [hsk1] at h ⊢
              by_cases hc : c = ':'
              · simp only [hc, if_true] at h ⊢
                cases hpv : parseValue f d r2 with
                | none => simp [hpv] at h
                | some p1 =>
                  obtain ⟨v, r3⟩ := p1
                  have hv := lenv _ _ _ _ hpv
                  rw [ihv _ _ _ g hpv (by omega)]
                  simp only [hpv] at h ⊢
                  cases hsk2 : skipSpace r3 with
                  | nil => simp [hsk2] at h
                  | cons c1 r4 =>
                    have hlen2 := skipSpace_cons_length hsk2
                    simp only [hsk2] at h ⊢
                    by_cases hc1 : c1 = ','
                    · simp only [hc1, if_true] at h ⊢
                      cases hpm : parseMembers f d r4 with
                      | none => simp [hpm] at h
                      | some p2 =>
                        rw [ihm _ _ _ g hpm (by omega)]
                        rw [hpm] at h
                        exact h
                    · simp only [hc1, if_false] at h ⊢
                      exact h
              · simp [hc] at h
        · simp [hq] at h

/-- The fuel `parse` gives the reader is enough for every text: `parse`
accepts exactly the texts the reader accepts with some fuel. -/
theorem parse_eq_some_iff (data : String) (v : JValue) :
    parse data = some v ↔
      ∃ fuel rest, parseValue fuel 0 data.data = some (v, rest) ∧ skipSpace rest = [] := by
  constructor
  · intro h
    unfold parse at h
    split at h
    · next v1 rest hp =>
      split at h
      · next hr =>
        cases h
        exact ⟨_, rest, hp, hr⟩
      · cases h
    · cases h
  · rintro ⟨fuel, rest, hp, hr⟩
    have := (parse_fuel fuel).1 0 data.data (v, rest) (2 * data.length + 2) hp
      (by simp only [String.length]; omega)
    unfold parse
    rw [this]
    simp [hr]

/-- A text `parse` rejects is rejected with every fuel. -/
theorem parse_eq_none_iff (data : String) :
    parse data = none ↔
      ∀ fuel v rest, parseValue fuel 0 data.data = some (v, rest) → skipSpace rest ≠ [] := by
  constructor
  · intro h fuel v rest hp hr
    have := (parse_eq_some_iff data v).mpr ⟨fuel, rest, hp, hr⟩
    rw [h] at this
    cases this
  · intro h
    cases hp : parse data with
    | none => rfl
    | some v =>
      obtain ⟨fuel, rest, hp1, hr⟩ := (parse_eq_some_iff data v).mp hp
      exact absurd hr (h fuel v rest hp1)

/-! ### Decoding what was written for a Go value -/

theorem mapSet_append (m : GoMap) (k : String) (v : GoValue) (h : k ∉ keys m) :
    mapSet m k v = m ++ [(k, v)] := by
  induction m with
  | nil => rfl
  | cons e rest ih =>
    obtain ⟨k1, v1⟩ := e
    have h1 : k1 ≠ k := fun h2 => h (by simp [keys, h2])
    have h3 : k ∉ keys rest := fun h2 => h (by simp [keys] at h2 ⊢; right; exact h2)
    simp [mapSet, h1, ih h3]

mutual
/-- Decoding the tree of a well-formed Go value gives the value back, without
error. -/
theorem valueInterface_toTree :
    ∀ v : GoValue, isGoValue v = true → valueInterface (toTree v) = (v, false)
  | Tree.null, _ => by simp [toTree, valueInterface]
  | Tree.bool _, _ => by simp [toTree, valueInterface]
  | Tree.str _, _ => by simp [toTree, valueInterface]
  | Tree.num (GoNumber.float f), h => by
    simp only [isGoValue] at h
    simp [toTree, valueInterface, numberInterface, numberLiteral, convertNumber_formatFloat f h]
  | Tree.num (GoNumber.outOfRange _), h => by simp [isGoValue] at h
  | Tree.arr xs, h => by
    simp only [isGoValue] at h
    simp [toTree, valueInterface, arrayInterface_toTree xs h]
  | Tree.obj ms, h => by
    simp only [isGoValue] at h
    simp [toTree, valueInterface, objectInterface_toTree ms h [] (by simp [keys])]
theorem arrayInterface_toTree :
    ∀ xs : List GoValue, areGoValues xs = true →
      arrayInterface (toTreeElements xs) = (xs, false)
  | [], _ => by simp [toTreeElements, arrayInterface]
  | x :: xs, h => by
    simp only [areGoValues, Bool.and_eq_true] at h
    simp [toTreeElements, arrayInterface, valueInterface_toTree x h.1,
      arrayInterface_toTree xs h.2]
theorem objectInterface_toTree :
    ∀ ms : GoMap, isGoMap ms = true →
      ∀ m : GoMap, (∀ k ∈ keys ms, k ∉ keys m) →
        objectInterface m (toTreeMembers ms) = (m ++ ms, false)
  | [], _, m, _ => by simp [toTreeMembers, objectInterface]
  | (k, v) :: ms, h, m, hk => by
    simp only [isGoMap, Bool.and_eq_true, decide_eq_true_eq] at h
    obtain ⟨⟨hnot, hv⟩, hms⟩ := h
    have hkm : k ∉ keys m := hk k (by simp [keys])
    have hrec := objectInterface_toTree ms hms (m ++ [(k, v)]) (by
      intro k1 hk1 hin
      simp only [keys, List.map_append, List.mem_append, List.map_cons, List.map_nil,
        List.mem_singleton] at hin
      rcases hin with hin | hin
      · exact hk k1 (by simp only [keys, List.map_cons, List.mem_cons]; right; exact hk1) hin
      · subst hin; exact hnot hk1)
    simp [toTreeMembers, objectInterface, valueInterface_toTree v hv, mapSet_append m k v hkm,
      hrec]
end

theorem validNumber_numberLiteral (n : GoNumber) : validNumber (numberLiteral n) = true := by
  cases n with
  | float f => exact validNumber_formatFloat f
  | outOfRange neg => cases neg <;> decide

mutual
theorem valid_toTree : ∀ v : GoValue, valid (toTree v) = true
  | Tree.null => by simp [toTree, valid]
  | Tree.bool _ => by simp [toTree, valid]
  | Tree.str _ => by simp [toTree, valid]
  | Tree.num n => by simp [toTree, valid, validNumber_numberLiteral]
  | Tree.arr xs => by simp [toTree, valid, validElements_toTree xs]
  | Tree.obj ms => by simp [toTree, valid, validMembers_toTree ms]
theorem validElements_toTree : ∀ xs : List GoValue, validElements (toTreeElements xs) = true
  | [] => by simp [toTreeElements, validElements]
  | x :: xs => by simp [toTreeElements, validElements, valid_toTree x, validElements_toTree xs]
theorem validMembers_toTree : ∀ ms : GoMap, validMembers (toTreeMembers ms) = true
  | [] => by simp [toTreeMembers, validMembers]
  | (k, v) :: ms => by
    simp [toTreeMembers, validMembers, valid_toTree v, validMembers_toTree ms]
end

mutual
theorem depth_toTree : ∀ v : GoValue, (toTree v).depth = v.depth
  | Tree.null => by simp [toTree, Tree.depth]
  | Tree.bool _ => by simp [toTree, Tree.depth]
  | Tree.str _ => by simp [toTree, Tree.depth]
  | Tree.num _ => by simp [toTree, Tree.depth]
  | Tree.arr xs => by simp [toTree, Tree.depth, depthElements_toTree xs]
  | Tree.obj ms => by simp [toTree, Tree.depth, depthMembers_toTree ms]
theorem depthElements_toTree :
    ∀ xs : List GoValue, Tree.depthElements (toTreeElements xs) = Tree.depthElements xs
  | [] => by simp [toTreeElements, Tree.depthElements]
  | x :: xs => by
    simp [toTreeElements, Tree.depthElements, depth_toTree x, depthElements_toTree xs]
theorem depthMembers_toTree :
    ∀ ms : GoMap, Tree.depthMembers (toTreeMembers ms) = Tree.depthMembers ms
  | [] => by simp [toTreeMembers, Tree.depthMembers]
  | (k, v) :: ms => by
    simp [toTreeMembers, Tree.depthMembers, depth_toTree v, depthMembers_toTree ms]
end

theorem valid_requestBody (Q Op : String) (v : JValue) (hv : valid v = true) :
    valid (requestBody Q v Op) = true := by
  simp [requestBody, valid, validMembers, hv]

theorem depth_requestBody (Q Op : String) (v : JValue) :
    (requestBody Q v Op).depth = v.depth + 1 := by
  simp [requestBody, Tree.depth, Tree.depthMembers]

end json

/-! ## Lemmas on `strings.Split` -/

theorem strings.splitChars_ne_nil (sep : Char) (cs : List Char) :
    ∀ cur, strings.splitChars sep cur cs ≠ [] := by
  induction cs with
  | nil => intro cur; simp [strings.splitChars]
  | cons c cs ih =>
    intro cur
    unfold strings.splitChars
    split
    · simp
    · exact ih _

theorem strings.Split_ne_nil (s : String) (sep : Char) : strings.Split s sep ≠ [] := by
  unfold strings.Split
  intro h
  exact strings.splitChars_ne_nil sep s.data [] (List.map_eq_nil_iff.mp h)

theorem strings.splitChars_head (sep : Char) (a rest : List Char) (ha : sep ∉ a)
    (hrest : rest = [] ∨ ∃ t, rest = sep :: t) :
    ∀ cur, (strings.splitChars sep cur (a ++ rest)).head? = some (cur.reverse ++ a) := by
  induction a with
  | nil =>
    intro cur
    rcases hrest with h | ⟨t, h⟩ <;> subst h <;> simp [strings.splitChars]
  | cons c cs ih =>
    intro cur
    have hc : c ≠ sep := fun h => ha (by simp [h])
    have hcs : sep ∉ cs := fun h => ha (by simp [h])
    simp [strings.splitChars, hc, ih hcs]

/-- Element 0 of the split is the text before the first `;`. -/
theorem strings.Split_head (s params : String) (hs : ';' ∉ s.data)
    (hp : params = "" ∨ ∃ rest, params = ";" ++ rest) :
    ∃ tl, strings.Split (s ++ params) ';' = s :: tl := by
  have hrest : params.data = [] ∨ ∃ t, params.data = ';' :: t := by
    rcases hp with h | ⟨rest, h⟩
    · left; simp [h]
    · right; exact ⟨rest.data, by simp [h]⟩
  have h := strings.splitChars_head ';' s.data params.data hs hrest []
  unfold strings.Split
  simp only [String.data_append]
  cases hsp : strings.splitChars ';' [] (s.data ++ params.data) with
  | nil => simp [hsp] at h
  | cons x tl =>
    simp [hsp] at h
    exact ⟨tl.map String.mk, by simp [h]⟩

/-! ## Lemmas on the branches of `getRequestOptions` -/

/-- The query-string branch: only the three URL parameters are read, and the
variables stay nil. -/
theorem getRequestOptions_query (d : schema.Decoder) (r : http.Request)
    (hq : r.URL.Query.Get "query" ≠ "") :
    getRequestOptions d r = Except.ok
      { Query := r.URL.Query.Get "query"
        Variables := none
        OperationName := r.URL.Query.Get "operationName" } := by
  unfold getRequestOptions
  simp only [hq, ne_eq, not_false_eq_true, if_true, json.Unmarshal_value]
  split <;> rfl

/-- The JSON branch: a `POST` without `query` parameter whose body was read
and whose type is neither of the two special ones. -/
theorem getRequestOptions_json (d : schema.Decoder) (r : http.Request) (data : String)
    (hq : r.URL.Query.Get "query" = "") (hm : r.Method = "POST")
    (hb : r.Body = some (http.Body.holding data))
    (h1 : mimeType r ≠ ContentTypeGraphQL) (h2 : mimeType r ≠ ContentTypeFormUrlEncoded) :
    getRequestOptions d r = Except.ok (resolveJSON data) := by
  unfold getRequestOptions resolveJSON
  unfold mimeType at h1 h2
  cases hs : strings.Split (r.Header.Get "Content-Type") ';' with
  | nil => exact absurd hs (strings.Split_ne_nil _ _)
  | cons ct tl =>
    rw [hs] at h1 h2
    simp only [List.headD_cons] at h1 h2
    simp only [hq, hm, hb, hs, h1, h2, ioutil.ReadAll, ne_eq, not_true_eq_false, if_false,
      ite_false, Bool.false_eq_true]
    split <;> rfl

/-- No branch of `getRequestOptions` panics. -/
theorem getRequestOptions_ok (d : schema.Decoder) (r : http.Request) :
    ∃ opts, getRequestOptions d r = Except.ok opts := by
  unfold getRequestOptions
  cases hs : strings.Split (r.Header.Get "Content-Type") ';' with
  | nil => exact absurd hs (strings.Split_ne_nil _ _)
  | cons ct tl =>
    simp only [hs]
    repeat' split
    all_goals exact ⟨_, rfl⟩

/-! ## Lemmas on decoding a request body -/

namespace json

theorem fieldIndex_query : fieldIndex optionTags "query" = some 0 := by rfl

theorem fieldIndex_variables : fieldIndex optionTags "variables" = some 1 := by rfl

theorem fieldIndex_operationName : fieldIndex optionTags "operationName" = some 2 := by rfl

theorem parse_empty : parse "" = none := by rfl

/-- Number literals the scanner takes and texts it does not take as one. -/
theorem validNumber_examples :
    validNumber "0" = true ∧ validNumber "-12.50e+3" = true ∧ validNumber "1E9" = true ∧
      validNumber "01" = false ∧ validNumber "1." = false ∧ validNumber ".5" = false ∧
      validNumber "+1" = false ∧ validNumber "1e" = false ∧ validNumber "-" = false ∧
      validNumber "" = false ∧ validNumber "1 " = false := by decide

/-- Direct decode of an object body with `variables` an object: no field
error, and the error flag is that of the variables. -/
theorem objectRequestOptions_direct (Q Op : String) (ms : JObject) :
    objectRequestOptions {}
        [("query", Tree.str Q), ("variables", Tree.obj ms), ("operationName", Tree.str Op)]
      = ({ Query := Q, Variables := some (objectInterface [] ms).1, OperationName := Op },
          (objectInterface [] ms).2) := by
  simp [objectRequestOptions, fieldIndex_query, fieldIndex_variables, fieldIndex_operationName,
    storeString, storeMap]

theorem objectCompatibility_direct (Q Op : String) (ms : JObject) :
    objectCompatibility {}
        [("query", Tree.str Q), ("variables", Tree.obj ms), ("operationName", Tree.str Op)]
      = ({ Query := Q, Variables := "", OperationName := Op }, true) := by
  simp [objectCompatibility, fieldIndex_query, fieldIndex_variables, fieldIndex_operationName,
    storeString]

/-- A written request body that nests within the limit reads back as the
tree it was written from. -/
theorem parse_requestBody (ws : List Char) (hws : allSpace ws) (Q Op : String) (v : JValue)
    (hv : valid v = true) (hd : v.depth + 1 ≤ maxNestingDepth) :
    parse (encode ws (requestBody Q v Op)) = some (requestBody Q v Op) :=
  parse_encode ws hws _ (valid_requestBody Q Op v hv) (by rw [depth_requestBody]; exact hd)

/-- A written request body that nests beyond the limit is a syntax error. -/
theorem parse_requestBody_too_deep (ws : List Char) (hws : allSpace ws) (Q Op : String)
    (v : JValue) (hv : valid v = true) (hd : maxNestingDepth < v.depth + 1) :
    parse (encode ws (requestBody Q v Op)) = none :=
  parse_encode_too_deep ws hws _ (valid_requestBody Q Op v hv)
    (by rw [depth_requestBody]; exact hd)

/-- Decoding the members written for a Go map gives the map back. -/
theorem objectInterface_goMap (V : GoMap) (hV : isGoMap V = true) :
    (objectInterface [] (toTreeMembers V)).1 = V := by
  rw [objectInterface_toTree V hV [] (by simp [keys])]
  rfl

end json

/-- The JSON branch on the direct-object body. -/
theorem resolveJSON_direct (data Q Op : String) (ms : JObject)
    (h : json.parse data = some (json.requestBody Q (Tree.obj ms) Op)) :
    resolveJSON data =
      { Query := Q, Variables := some (json.objectInterface [] ms).1, OperationName := Op } := by
  unfold resolveJSON
  simp only [json.Unmarshal_requestOptions, json.Unmarshal_requestOptionsCompatibility,
    json.Unmarshal_map, h, json.requestBody, json.storeStruct, json.objectRequestOptions_direct,
    json.objectCompatibility_direct, json.parse_empty]
  split <;> rfl

/-- A body that is not JSON text gives the empty options. -/
theorem resolveJSON_invalid (data : String) (h : json.parse data = none) :
    resolveJSON data = { Query := "", Variables := none, OperationName := "" } := by
  unfold resolveJSON
  simp [json.Unmarshal_requestOptions, json.Unmarshal_requestOptionsCompatibility,
    json.Unmarshal_map, h, json.parse_empty]

/-- The JSON branch on a written direct-object body: the decoded options
when the body nests within the limit, the empty options beyond it. -/
theorem resolveJSON_objectBody (ws : List Char) (hws : json.allSpace ws) (Q Op : String)
    (ms : JObject) (hms : json.validMembers ms = true) :
    resolveJSON (json.encode ws (json.requestBody Q (Tree.obj ms) Op)) =
      if (Tree.obj ms).depth + 1 ≤ json.maxNestingDepth then
        { Query := Q, Variables := some (json.objectInterface [] ms).1, OperationName := Op }
      else { Query := "", Variables := none, OperationName := "" } := by
  have hv : json.valid (Tree.obj ms) = true := by simp [json.valid, hms]
  split
  · next hd =>
    exact resolveJSON_direct _ Q Op ms (json.parse_requestBody ws hws Q Op _ hv hd)
  · next hd =>
    exact resolveJSON_invalid _
      (json.parse_requestBody_too_deep ws hws Q Op _ hv (Nat.lt_of_not_le hd))

/-- The text of nested arrays: the opening brackets, then the closing ones. -/
theorem Sample.render_nest (n : Nat) :
    json.render [] (json.toTree (Sample.nest n)) =
      List.replicate (n + 1) '[' ++ List.replicate (n + 1) ']' := by
  induction n with
  | zero => rfl
  | succ n ih =>
    simp only [Sample.nest, json.toTree, json.toTreeElements, json.render, json.renderElements,
      json.renderMore, List.nil_append, ih]
    rw [List.replicate_succ (n := n + 1), List.replicate_succ' (n := n + 1)]
    simp

/-- The nested direct-object body is the text written for the Go map with
`a` = the nested arrays. -/
theorem Sample.nestedBody_eq (n : Nat) :
    Sample.nestedBody (n + 1) =
      json.encode []
        (json.requestBody "Q" (json.toTree (Tree.obj [("a", Sample.nest n)])) "Op") := by
  have h : ∀ X : JValue, json.encode [] (json.requestBody "Q" (Tree.obj [("a", X)]) "Op") =
      String.mk ("\x7b\"query\":\"Q\",\"variables\":\x7b\"a\":".data ++
        (json.render [] X ++ "\x7d,\"operationName\":\"Op\"\x7d".data)) := by
    intro X
    simp [json.encode, json.requestBody, json.render, json.renderMembers,
      json.renderMoreMembers, json.quote, json.escape, json.escapeChar]
  simp only [json.toTree, json.toTreeMembers]
  rw [h, Sample.render_nest, Sample.nestedBody, List.append_assoc]

theorem Sample.depth_nest (n : Nat) : (Sample.nest n).depth = n + 1 := by
  induction n with
  | zero => simp [Sample.nest, Tree.depth, Tree.depthElements]
  | succ n ih => simp [Sample.nest, Tree.depth, Tree.depthElements, ih]

theorem Sample.isGoValue_nest (n : Nat) : json.isGoValue (Sample.nest n) = true := by
  induction n with
  | zero => simp [Sample.nest, json.isGoValue, json.areGoValues]
  | succ n ih => simp [Sample.nest, json.isGoValue, json.areGoValues, ih]

theorem Sample.validMembers_singleton (k : String) (v : GoValue) :
    json.validMembers (json.toTreeMembers [(k, v)]) = true :=
  json.validMembers_toTree [(k, v)]

theorem Sample.depth_singleton (k : String) (v : GoValue) :
    (Tree.obj (json.toTreeMembers [(k, v)])).depth = v.depth + 1 := by
  simp [json.toTreeMembers, Tree.depth, Tree.depthMembers, json.depth_toTree]

theorem Sample.depth_entry (k : String) (v : GoValue) :
    (Tree.obj [(k, v)]).depth = v.depth + 1 := by
  simp [Tree.depth, Tree.depthMembers]

theorem Sample.goMap_singleton (k : String) (v : GoValue) (h : json.isGoValue v = true) :
    (json.objectInterface [] (json.toTreeMembers [(k, v)])).1 = [(k, v)] :=
  json.objectInterface_goMap [(k, v)] (by simp [json.isGoMap, json.keys, h])

theorem Sample.postJSON_json (d : schema.Decoder) (body : String) :
    getRequestOptions d (Sample.postJSON body) = Except.ok (resolveJSON body) := by
  have hm : mimeType (Sample.postJSON body) = "application/json" := by rfl
  exact getRequestOptions_json d (Sample.postJSON body) body (by rfl) rfl rfl
    (by rw [hm]; decide) (by rw [hm]; decide)

/-! ## Claims on the query-string branch and the method gate -/

/-- C1: two requests with the same URL query parameters, the `query` parameter
being non-empty (its first value, which is what `Get` reads), resolve to the
same options whatever their methods, headers, bodies and form decoders are:
the body is not consulted. -/
theorem C1_same_query_parameters_same_options (d1 d2 : schema.Decoder)
    (r1 r2 : http.Request) (hsame : r1.URL.Query = r2.URL.Query)
    (hq : r1.URL.Query.Get "query" ≠ "") :
    getRequestOptions d1 r1 = getRequestOptions d2 r2 := by
  rw [getRequestOptions_query d1 r1 hq, getRequestOptions_query d2 r2 (hsame ▸ hq), hsame]

/-- C1 at a `GET` without body and a `POST` with a JSON body naming another
query, both with the same URL parameters. -/
theorem C1_same_query_parameters_same_options_witness :
    Sample.getHello.URL.Query = Sample.postHello.URL.Query ∧
      Sample.getHello.URL.Query.Get "query" ≠ "" ∧
      getRequestOptions Sample.formDecoder Sample.getHello =
        getRequestOptions Sample.formDecoder Sample.postHello :=
  ⟨rfl, by decide,
    C1_same_query_parameters_same_options Sample.formDecoder Sample.formDecoder
      Sample.getHello Sample.postHello rfl (by decide)⟩

/-- C2, evaluated on the code: for `query=\x7bhello\x7d`, `variables=\x7b"a":1\x7d`,
`operationName=Op` the `variables` parameter is the JSON encoding of the
object with `a = 1`, which decodes into a map to `a` = the `float64` 1, yet
the options come back with nil `Variables`, not with that map. -/
theorem C2_url_variables_are_not_decoded :
    json.parse (Sample.getHello.URL.Query.Get "variables") =
        some (Tree.obj Sample.varsA1Tree) ∧
      json.Unmarshal_map (Sample.getHello.URL.Query.Get "variables") none =
        (some Sample.varsA1, false) ∧
      getRequestOptions Sample.formDecoder Sample.getHello = Except.ok
        { Query := "\x7bhello\x7d", Variables := none, OperationName := "Op" } ∧
      getRequestOptions Sample.formDecoder Sample.getHello ≠ Except.ok
        { Query := "\x7bhello\x7d", Variables := some Sample.varsA1, OperationName := "Op" } := by
  have hrun : getRequestOptions Sample.formDecoder Sample.getHello = Except.ok
      { Query := "\x7bhello\x7d", Variables := none, OperationName := "Op" } := by rfl
  refine ⟨by rfl, by rfl, hrun, ?_⟩
  rw [hrun]
  intro h
  have hvars := congrArg requestOptions.Variables (Except.ok.inj h)
  exact Option.noConfusion hvars

/-- C3: with a non-empty `query` parameter and a `variables` parameter that is
absent or not valid JSON, resolution returns (no panic) the `query`
parameter, the `operationName` parameter and nil `Variables`. -/
theorem C3_invalid_url_variables_give_nil (d : schema.Decoder) (r : http.Request)
    (hq : r.URL.Query.Get "query" ≠ "")
    (hv : r.URL.Query.values "variables" = [] ∨
      json.parse (r.URL.Query.Get "variables") = none) :
    getRequestOptions d r = Except.ok
      { Query := r.URL.Query.Get "query"
        Variables := none
        OperationName := r.URL.Query.Get "operationName" } := by
  rcases hv with _ | _ <;> exact getRequestOptions_query d r hq

/-- C3 at `variables=\x7boops`. -/
theorem C3_invalid_url_variables_give_nil_witness :
    json.parse (Sample.getBadVariables.URL.Query.Get "variables") = none ∧
      getRequestOptions Sample.formDecoder Sample.getBadVariables = Except.ok
        { Query := "\x7bhello\x7d", Variables := none, OperationName := "Op" } :=
  ⟨by rfl,
    C3_invalid_url_variables_give_nil Sample.formDecoder Sample.getBadVariables (by decide)
      (Or.inr (by rfl))⟩

/-- C4: without a non-empty `query` parameter and with a method other than
`POST`, resolution returns the empty options, whatever header and body. -/
theorem C4_method_gate_gives_empty_options (d : schema.Decoder) (r : http.Request)
    (hq : r.URL.Query.Get "query" = "") (hm : r.Method ≠ "POST") :
    getRequestOptions d r = Except.ok
      { Query := "", Variables := none, OperationName := "" } := by
  unfold getRequestOptions
  simp [hq, hm]

/-- C4 at a `PUT` that carries a complete JSON body. -/
theorem C4_method_gate_gives_empty_options_witness :
    Sample.putDirect.Body = some (http.Body.holding Sample.directBody) ∧
      getRequestOptions Sample.formDecoder Sample.putDirect = Except.ok
        { Query := "", Variables := none, OperationName := "" } :=
  ⟨rfl,
    C4_method_gate_gives_empty_options Sample.formDecoder Sample.putDirect (by decide)
      (by decide)⟩

/-! ## Claims on the body branches -/

/-- C5, as the code has it: a `POST` without `query` parameter, of JSON type
or of a missing or unrecognized type, whose body is the JSON text of the
object with members `query` = Q, `variables` = the object V and
`operationName` = Op, written compactly or with a whitespace `ws` of choice
between the tokens, resolves to exactly Q, V as decoded and Op when the body
nests at most 10000 deep, and to the empty options when it nests deeper.
For every Go map V (distinct keys, `float64` numbers) written as the
object, within that depth, the decoded map is V itself. -/
theorem C5_json_body_round_trip (d : schema.Decoder) (r : http.Request) (ws : List Char)
    (Q Op : String)
    (hm : r.Method = "POST") (hq : r.URL.Query.Get "query" = "")
    (h1 : mimeType r ≠ ContentTypeGraphQL) (h2 : mimeType r ≠ ContentTypeFormUrlEncoded)
    (hws : json.allSpace ws) :
    (∀ ms : JObject, json.validMembers ms = true →
      r.Body = some (http.Body.holding
        (json.encode ws (json.requestBody Q (Tree.obj ms) Op))) →
      getRequestOptions d r =
        if (Tree.obj ms).depth + 1 ≤ json.maxNestingDepth then
          Except.ok
            { Query := Q, Variables := some (json.objectInterface [] ms).1, OperationName := Op }
        else Except.ok { Query := "", Variables := none, OperationName := "" }) ∧
      (∀ V : GoMap, json.isGoMap V = true →
        (Tree.obj V).depth + 1 ≤ json.maxNestingDepth →
        r.Body = some (http.Body.holding
          (json.encode ws (json.requestBody Q (json.toTree (Tree.obj V)) Op))) →
        getRequestOptions d r =
          Except.ok { Query := Q, Variables := some V, OperationName := Op }) := by
  constructor
  · intro ms hms hb
    rw [getRequestOptions_json d r _ hq hm hb h1 h2, resolveJSON_objectBody ws hws Q Op ms hms]
    split <;> rfl
  · intro V hV hd hb
    have hd1 : (Tree.obj (json.toTreeMembers V)).depth + 1 ≤ json.maxNestingDepth := by
      have := json.depth_toTree (Tree.obj V)
      simp only [json.toTree] at this
      rw [this]
      exact hd
    simp only [json.toTree] at hb
    rw [getRequestOptions_json d r _ hq hm hb h1 h2,
      resolveJSON_objectBody ws hws Q Op _ (json.validMembers_toTree V), if_pos hd1,
      json.objectInterface_goMap V hV]

/-- C5 at Q = "Q", V = the object with `a = 1`, Op = "Op": the compact text
with `Content-Type: application/json`, without the header and as
`text/plain`, the text written for the Go map with blanks between the
tokens, and a body with every kind of token. -/
theorem C5_json_body_round_trip_witness :
    mimeType Sample.postDirect = ContentTypeJSON ∧
      mimeType Sample.postDirectNoType = "" ∧
      mimeType Sample.postDirectPlain = "text/plain" ∧
      Sample.directBody =
        json.encode [] (json.requestBody "Q" (Tree.obj Sample.varsA1Tree) "Op") ∧
      getRequestOptions Sample.formDecoder Sample.postDirect = Except.ok
        { Query := "Q", Variables := some Sample.varsA1, OperationName := "Op" } ∧
      getRequestOptions Sample.formDecoder Sample.postDirectNoType = Except.ok
        { Query := "Q", Variables := some Sample.varsA1, OperationName := "Op" } ∧
      getRequestOptions Sample.formDecoder Sample.postDirectPlain = Except.ok
        { Query := "Q", Variables := some Sample.varsA1, OperationName := "Op" } ∧
      getRequestOptions Sample.formDecoder (Sample.postJSON Sample.writtenBody) = Except.ok
        { Query := "Q", Variables := some Sample.varsA1, OperationName := "Op" } ∧
      getRequestOptions Sample.formDecoder (Sample.postJSON Sample.richBody) = Except.ok
        { Query := Sample.richQuery, Variables := some Sample.richVariables,
          OperationName := "Op" } :=
  ⟨by decide, by decide, by decide, by decide,
    ((C5_json_body_round_trip Sample.formDecoder Sample.postDirect [] "Q" "Op" rfl (by decide)
      (by decide) (by decide) (by decide)).1 Sample.varsA1Tree (by decide) (by rfl)).trans
        (by rfl),
    ((C5_json_body_round_trip Sample.formDecoder Sample.postDirectNoType [] "Q" "Op" rfl
      (by decide) (by decide) (by decide) (by decide)).1 Sample.varsA1Tree (by decide)
        (by rfl)).trans (by rfl),
    ((C5_json_body_round_trip Sample.formDecoder Sample.postDirectPlain [] "Q" "Op" rfl
      (by decide) (by decide) (by decide) (by decide)).1 Sample.varsA1Tree (by decide)
        (by rfl)).trans (by rfl),
    (C5_json_body_round_trip Sample.formDecoder (Sample.postJSON Sample.writtenBody) [' '] "Q"
      "Op" rfl (by decide) (by decide) (by decide) (by decide)).2 Sample.varsA1 (by decide)
        (by decide) rfl,
    by rfl⟩

/-- C5 fails beyond the nesting limit: for the Go map V with `a` = 9999 nested
arrays, which nests 10000 deep, the body
`\x7b"query":"Q","variables":\x7b"a":[[...]]\x7d,"operationName":"Op"\x7d` nests 10001
deep, so it is a syntax error for the direct and for the compatibility
decode, and the options come back empty instead of holding "Q", V and
"Op". -/
theorem C5_deep_variables_give_empty_options :
    json.isGoMap Sample.deepVariables = true ∧
      (Tree.obj Sample.deepVariables).depth = 10000 ∧
      Sample.deepBody =
        json.encode []
          (json.requestBody "Q" (json.toTree (Tree.obj Sample.deepVariables)) "Op") ∧
      json.parse Sample.deepBody = none ∧
      getRequestOptions Sample.formDecoder (Sample.postJSON Sample.deepBody) = Except.ok
        { Query := "", Variables := none, OperationName := "" } ∧
      getRequestOptions Sample.formDecoder (Sample.postJSON Sample.deepBody) ≠ Except.ok
        { Query := "Q", Variables := some Sample.deepVariables, OperationName := "Op" } := by
  have hbody : Sample.deepBody =
      json.encode []
        (json.requestBody "Q" (json.toTree (Tree.obj Sample.deepVariables)) "Op") := by
    rw [Sample.deepBody, show (9999 : Nat) = 9998 + 1 from rfl, Sample.nestedBody_eq]
    rfl
  have hdepth : (Tree.obj (json.toTreeMembers Sample.deepVariables)).depth = 10000 := by
    rw [Sample.deepVariables, Sample.depth_singleton, Sample.depth_nest]
  have hparse : json.parse Sample.deepBody = none := by
    rw [hbody, json.toTree]
    exact json.parse_requestBody_too_deep [] (by simp [json.allSpace]) "Q" "Op" _
      (by simp [json.valid, json.validMembers_toTree])
      (by rw [hdepth]; simp [json.maxNestingDepth])
  have hrun : getRequestOptions Sample.formDecoder (Sample.postJSON Sample.deepBody) =
      Except.ok { Query := "", Variables := none, OperationName := "" } := by
    rw [Sample.postJSON_json, resolveJSON_invalid _ hparse]
  refine ⟨?_, ?_, hbody, hparse, hrun, ?_⟩
  · simp [Sample.deepVariables, json.isGoMap, json.keys, Sample.isGoValue_nest]
  · rw [Sample.deepVariables, Sample.depth_entry, Sample.depth_nest]
  · rw [hrun]
    intro h
    have hquery := congrArg requestOptions.Query (Except.ok.inj h)
    exact absurd hquery (by decide)

/-- C7: a `POST` without `query` parameter whose body reads as `data` and whose
`Content-Type` is `application/graphql`, alone or followed by `;` and any
parameters, resolves to `Query = data`, nil `Variables` and an empty
`OperationName`. -/
theorem C7_graphql_body_is_the_query (d : schema.Decoder) (r : http.Request)
    (data params : String)
    (hm : r.Method = "POST") (hq : r.URL.Query.Get "query" = "")
    (hb : r.Body = some (http.Body.holding data))
    (hct : r.Header.Get "Content-Type" = ContentTypeGraphQL ++ params)
    (hp : params = "" ∨ ∃ rest, params = ";" ++ rest) :
    getRequestOptions d r = Except.ok
      { Query := data, Variables := none, OperationName := "" } := by
  obtain ⟨tl, hs⟩ := strings.Split_head ContentTypeGraphQL params (by decide) hp
  unfold getRequestOptions
  simp only [hq, hm, hb, hct, hs, ioutil.ReadAll, ne_eq, not_true_eq_false, if_false,
    if_true, Bool.false_eq_true]

/-- C7 at the body `\x7b hello \x7d` sent as `application/graphql; charset=utf-8`. -/
theorem C7_graphql_body_is_the_query_witness :
    Sample.postGraphQL.Header.Get "Content-Type" =
        ContentTypeGraphQL ++ "; charset=utf-8" ∧
      getRequestOptions Sample.formDecoder Sample.postGraphQL = Except.ok
        { Query := "\x7b hello \x7d", Variables := none, OperationName := "" } :=
  ⟨by decide,
    C7_graphql_body_is_the_query Sample.formDecoder Sample.postGraphQL "\x7b hello \x7d"
      "; charset=utf-8" rfl (by decide) rfl (by decide) (Or.inr ⟨" charset=utf-8", by decide⟩)⟩

/-! ## Claims on the handler -/

/-- C8: `NewHandler` panics with "undefined graphQL schema" exactly when the
config is nil or its schema is nil, and with no other message; the default
config has a nil schema and `Pretty = true`; on a config with schema `s` it
returns the handler bound to `s`, with a renderer that indents as the
config's `Pretty` says. -/
theorem C8_NewHandler_panics_iff_no_schema {σ : Type} :
    (∀ p : Option (HandlerConfig σ),
        NewHandler p = Except.error "undefined graphQL schema" ↔
          (p = none ∨ ∃ c, p = some c ∧ c.Schema = none)) ∧
      (∀ p : Option (HandlerConfig σ), ∀ msg, NewHandler p = Except.error msg →
        msg = "undefined graphQL schema") ∧
      (NewHandlerConfig : HandlerConfig σ) = { Schema := none, Pretty := true } ∧
      (∀ (c : HandlerConfig σ) (s : σ), c.Schema = some s →
        NewHandler (some c) = Except.ok
          { Schema := some s, render := some (render.New { IndentJSON := c.Pretty }) }) := by
  refine ⟨?_, ?_, rfl, ?_⟩
  · intro p
    cases p with
    | none => simp [NewHandler, NewHandlerConfig]
    | some c =>
      cases hc : c.Schema with
      | none => simp [NewHandler, hc]
      | some s => simp [NewHandler, hc]
  · intro p msg h
    cases p with
    | none =>
      simp only [NewHandler, NewHandlerConfig] at h
      exact (Except.error.inj h).symm
    | some c =>
      cases hc : c.Schema with
      | none =>
        simp only [NewHandler, hc] at h
        exact (Except.error.inj h).symm
      | some s => simp [NewHandler, hc] at h
  · intro c s hc
    simp [NewHandler, hc]

/-- C8 at the nil config and at the sample config, whose schema is `"schema"`. -/
theorem C8_NewHandler_panics_iff_no_schema_witness :
    NewHandler (none : Option (HandlerConfig String)) =
        Except.error "undefined graphQL schema" ∧
      NewHandler (some Sample.config) = Except.ok Sample.handler :=
  ⟨(C8_NewHandler_panics_iff_no_schema.1 none).mpr (Or.inl rfl),
    C8_NewHandler_panics_iff_no_schema.2.2.2 Sample.config "schema" rfl⟩

/-- C9: for a handler with schema `s` and renderer `rnd`, as `NewHandler`
builds it, any request resolves to some options `opts`, and for every result
the engine delivers for the parameters made of `s` and the `Query`,
`Variables` and `OperationName` of `opts`, `ServeHTTP` returns after exactly
two effects: one engine call with those parameters and one `render.JSON` of
that result with status 200. In every run of any handler, each rendering has
status 200. -/
theorem C9_ServeHTTP_executes_and_renders_200 {σ ρ : Type} (d : schema.Decoder)
    (Graphql : gql.GraphqlParams σ → Option ρ) (h : Handler σ) (r : http.Request) :
    (∀ s rnd, h.Schema = some s → h.render = some rnd →
      ∃ opts, getRequestOptions d r = Except.ok opts ∧
        ∀ result,
          Graphql { Schema := s, RequestString := opts.Query, VariableValues := opts.Variables,
                    OperationName := opts.OperationName } = some result →
          Handler.ServeHTTP d Graphql h r = Except.ok
            { effects :=
                [Effect.Graphql
                    { Schema := s, RequestString := opts.Query,
                      VariableValues := opts.Variables, OperationName := opts.OperationName },
                  Effect.JSON rnd 200 result]
              returned := true }) ∧
      (∀ run, Handler.ServeHTTP d Graphql h r = Except.ok run →
        ∀ rnd status v, Effect.JSON rnd status v ∈ run.effects → status = 200) := by
  obtain ⟨opts, hopts⟩ := getRequestOptions_ok d r
  constructor
  · intro s rnd hs hr
    refine ⟨opts, hopts, ?_⟩
    intro result hres
    simp only [Handler.ServeHTTP, hopts, hs, hr, hres, http.StatusOK]
  · intro run hrun rnd status v hmem
    unfold Handler.ServeHTTP at hrun
    simp only [hopts] at hrun
    cases hs : h.Schema with
    | none => simp [hs] at hrun
    | some s =>
      simp only [hs] at hrun
      split at hrun
      · cases hrun
        simp at hmem
      · cases hr : h.render with
        | none => simp [hr] at hrun
        | some rnd1 =>
          simp only [hr] at hrun
          cases hrun
          simp [http.StatusOK] at hmem
          exact hmem.2.1

/-- C9 at the handler `NewHandler` builds from the sample config, the echo
engine and the `application/graphql` sample request. -/
theorem C9_ServeHTTP_executes_and_renders_200_witness :
    NewHandler (some Sample.config) = Except.ok Sample.handler ∧
      Handler.ServeHTTP Sample.formDecoder Sample.echoEngine Sample.handler
          Sample.postGraphQL =
        Except.ok
          { effects :=
              [Effect.Graphql
                  { Schema := "schema", RequestString := "\x7b hello \x7d",
                    VariableValues := none, OperationName := "" },
                Effect.JSON (render.New { IndentJSON := false }) 200 "\x7b hello \x7d"]
            returned := true } := by
  obtain ⟨opts, hopts, hrun⟩ :=
    (C9_ServeHTTP_executes_and_renders_200 Sample.formDecoder Sample.echoEngine
      Sample.handler Sample.postGraphQL).1 "schema" (render.New { IndentJSON := false }) rfl rfl
  have hval : opts = { Query := "\x7b hello \x7d", Variables := none, OperationName := "" } :=
    Except.ok.inj (hopts.symm.trans (by rfl))
  subst hval
  exact ⟨rfl, hrun "\x7b hello \x7d" rfl⟩

/-- C10: `getRequestOptions` returns options for every request and form
decoder, never a panic; the split of any header value at `;` has an element
0; in the JSON branch an unreadable body yields the empty options, a body
that is not valid JSON fails the direct and the compatibility decode and
yields the empty options, and whenever both decodes fail the result keeps
the `Query` and `OperationName` the direct decode stored. -/
theorem C10_getRequestOptions_total :
    (∀ (d : schema.Decoder) (r : http.Request), ∃ opts, getRequestOptions d r = Except.ok opts) ∧
      (∀ s : String, ∃ hd tl, strings.Split s ';' = hd :: tl) ∧
      (∀ (d : schema.Decoder) (r : http.Request),
        r.Method = "POST" → r.URL.Query.Get "query" = "" →
        r.Body = some http.Body.failing →
        mimeType r ≠ ContentTypeFormUrlEncoded →
        getRequestOptions d r = Except.ok
          { Query := "", Variables := none, OperationName := "" }) ∧
      (∀ (d : schema.Decoder) (r : http.Request) (data : String),
        r.Method = "POST" → r.URL.Query.Get "query" = "" →
        r.Body = some (http.Body.holding data) →
        mimeType r ≠ ContentTypeGraphQL → mimeType r ≠ ContentTypeFormUrlEncoded →
        (json.parse data = none →
          (json.Unmarshal_requestOptions data {}).2 = true ∧
            (json.Unmarshal_requestOptionsCompatibility data {}).2 = true ∧
            getRequestOptions d r = Except.ok
              { Query := "", Variables := none, OperationName := "" }) ∧
        ((json.Unmarshal_requestOptions data {}).2 = true →
          (json.Unmarshal_requestOptionsCompatibility data {}).2 = true →
          ∃ vars, getRequestOptions d r = Except.ok
            { Query := (json.Unmarshal_requestOptions data {}).1.Query
              Variables := vars
              OperationName := (json.Unmarshal_requestOptions data {}).1.OperationName })) := by
  refine ⟨getRequestOptions_ok, ?_, ?_, ?_⟩
  · intro s
    cases hs : strings.Split s ';' with
    | nil => exact absurd hs (strings.Split_ne_nil _ _)
    | cons hd tl => exact ⟨hd, tl, rfl⟩
  · intro d r hm hq hb h2
    unfold mimeType at h2
    unfold getRequestOptions
    cases hs : strings.Split (r.Header.Get "Content-Type") ';' with
    | nil => exact absurd hs (strings.Split_ne_nil _ _)
    | cons ct tl =>
      rw [hs] at h2
      simp only [List.headD_cons] at h2
      simp only [hq, hm, hb, hs, h2, ioutil.ReadAll, ne_eq, not_true_eq_false, if_false,
        if_true]
      split <;> rfl
  · intro d r data hm hq hb h1 h2
    constructor
    · intro hp
      refine ⟨?_, ?_, ?_⟩
      · simp [json.Unmarshal_requestOptions, hp]
      · simp [json.Unmarshal_requestOptionsCompatibility, hp]
      · rw [getRequestOptions_json d r data hq hm hb h1 h2, resolveJSON_invalid data hp]
    · intro hd _
      rw [getRequestOptions_json d r data hq hm hb h1 h2]
      unfold resolveJSON
      rw [if_pos hd]
      exact ⟨_, rfl⟩

/-- C10 at a `POST` with `Content-Type: ;;` and the body `not json`, at a body
that cannot be read, and at a body with `variables = 5`, where only `Query`
is populated. -/
theorem C10_getRequestOptions_total_witness :
    strings.Split ";;" ';' = ["", "", ""] ∧
      json.parse "not json" = none ∧
      getRequestOptions Sample.formDecoder Sample.postGarbage = Except.ok
        { Query := "", Variables := none, OperationName := "" } ∧
      getRequestOptions Sample.formDecoder Sample.postUnreadable = Except.ok
        { Query := "", Variables := none, OperationName := "" } ∧
      ∃ vars, getRequestOptions Sample.formDecoder Sample.postPartial = Except.ok
        { Query := "Q", Variables := vars, OperationName := "" } :=
  ⟨by decide, by rfl,
    ((C10_getRequestOptions_total.2.2.2 Sample.formDecoder Sample.postGarbage "not json" rfl
      (by decide) rfl (by decide) (by decide)).1 (by rfl)).2.2,
    C10_getRequestOptions_total.2.2.1 Sample.formDecoder Sample.postUnreadable rfl (by decide)
      rfl (by decide),
    (C10_getRequestOptions_total.2.2.2 Sample.formDecoder Sample.postPartial
      "\x7b\"query\":\"Q\",\"variables\":5\x7d" rfl (by decide) rfl (by decide)
      (by decide)).2 (by rfl) (by rfl)⟩

end GqlRelay
